import Mathlib

/-!
Verification of the digits puzzle core: a shallow embedding of
`src/utils/gameLogic.ts` and `src/utils/boardGenerator.ts`, with theorems
checking the natural-language specification against the code.

Conventions of the embedding:
* TypeScript `number | null` cell values become `Option Nat`; digits are the
  numbers actually stored by the program.
* Boards are lists of rows of cells; array reads out of bounds become `Option`
  misses, matching the TypeScript `getCell` guard (a missing cell never blocks
  a path and never matches).
* `Math.random()`-driven choices are threaded through an explicit stream of
  naturals (`Rng`), so each theorem quantifies over every possible run.
* Coordinates are naturals; the diagonal walk, whose intermediate coordinates
  are computed by signed arithmetic in the source, is embedded over `Int` with
  the same negative-coordinate guards as `getCell`.
-/

namespace Digits

/-- The source's `Position` interface: a (row, column) coordinate pair. -/
structure Position where
  row : Nat
  col : Nat
deriving DecidableEq, Repr

/-- The source's `Cell` interface: an optional digit plus the stored position. -/
structure Cell where
  value : Option Nat
  position : Position
deriving DecidableEq, Repr

/-- The source's `Board` type: rows of cells. -/
abbrev Board := List (List Cell)

/-- Indexed map over a list, keeping track of the element index starting at `s`. -/
def mapWithIdx (f : Nat → α → β) (s : Nat) : List α → List β
  | [] => []
  | a :: as => f s a :: mapWithIdx f (s + 1) as

/-- Indexed `all` over a list. -/
def allWithIdx (f : Nat → α → Bool) (s : Nat) : List α → Bool
  | [] => true
  | a :: as => f s a && allWithIdx f (s + 1) as

theorem mapWithIdx_length (f : Nat → α → β) (s : Nat) (l : List α) :
    (mapWithIdx f s l).length = l.length := by
  induction l generalizing s with
  | nil => rfl
  | cons a as ih => simp [mapWithIdx, ih]

theorem mapWithIdx_get? (f : Nat → α → β) (s n : Nat) (l : List α) :
    (mapWithIdx f s l).get? n = (l.get? n).map (f (s + n)) := by
  induction l generalizing s n with
  | nil => simp [mapWithIdx]
  | cons a as ih =>
    cases n with
    | zero => simp [mapWithIdx]
    | succ n =>
      show (mapWithIdx f (s + 1) as).get? n = (as.get? n).map (f (s + (n + 1)))
      rw [ih (s + 1) n]
      have h : s + 1 + n = s + (n + 1) := by omega
      rw [h]

theorem allWithIdx_eq_true (f : Nat → α → Bool) (s : Nat) (l : List α) :
    allWithIdx f s l = true ↔ ∀ n a, l.get? n = some a → f (s + n) a = true := by
  induction l generalizing s with
  | nil => simp [allWithIdx]
  | cons a as ih =>
    simp only [allWithIdx, Bool.and_eq_true, ih]
    constructor
    · rintro ⟨h0, hrest⟩ n b hb
      cases n with
      | zero =>
        have hab : a = b := by simpa using hb
        simpa [hab] using h0
      | succ n =>
        have := hrest n b (by simpa using hb)
        have h : s + 1 + n = s + (n + 1) := by omega
        rwa [h] at this
    · intro h
      refine ⟨by simpa using h 0 a rfl, fun n b hb => ?_⟩
      have := h (n + 1) b (by simpa using hb)
      have heq : s + 1 + n = s + (n + 1) := by omega
      rwa [heq]

/-- Cell lookup by row/column in a board. -/
def cellAt? (board : Board) (r c : Nat) : Option Cell :=
  (board.get? r).bind fun row => row.get? c

/-! ## `gameLogic.ts` -/

/-- `canMatchValues`: same digit, or the two digits sum to 10. -/
def canMatchValues (a b : Nat) : Bool := a == b || a + b == 10

/-- `getCell`: cell at a position, `none` when out of bounds (the column bound
is taken from the first row, as in the source). -/
def getCell (board : Board) (pos : Position) : Option Cell :=
  if board.length ≤ pos.row then none
  else if (board.headD []).length ≤ pos.col then none
  else (board.getD pos.row []).get? pos.col

/-- A position blocks a path when its cell exists and holds a value
(the source's `cell && cell.value !== null`). -/
def cellBlocked (board : Board) (pos : Position) : Bool :=
  match getCell board pos with
  | some c => c.value.isSome
  | none => false

/-- Blocking test at signed coordinates: the source's `getCell` returns `null`
for a negative row or column, which never blocks. -/
def cellBlockedI (board : Board) (row col : Int) : Bool :=
  if row < 0 || col < 0 then false
  else cellBlocked board ⟨row.toNat, col.toNat⟩

/-- `isHorizontalPathClear`: same row, and every cell strictly between the two
columns is free. -/
def isHorizontalPathClear (board : Board) (src dst : Position) : Bool :=
  if src.row ≠ dst.row then false
  else
    (List.range' (min src.col dst.col + 1)
        (max src.col dst.col - (min src.col dst.col + 1))).all
      fun col => !cellBlocked board ⟨src.row, col⟩

/-- `isVerticalPathClear`: same column, and every cell strictly between the two
rows is free. -/
def isVerticalPathClear (board : Board) (src dst : Position) : Bool :=
  if src.col ≠ dst.col then false
  else
    (List.range' (min src.row dst.row + 1)
        (max src.row dst.row - (min src.row dst.row + 1))).all
      fun row => !cellBlocked board ⟨row, src.col⟩

/-- `isDiagonalPathClear`: equal absolute row/column difference, nonzero,
optionally capped by `maxDistance`, and every diagonal step strictly between
the endpoints is free. -/
def isDiagonalPathClear (board : Board) (src dst : Position)
    (maxDistance : Option Nat) : Bool :=
  let rowDiff : Int := (dst.row : Int) - (src.row : Int)
  let colDiff : Int := (dst.col : Int) - (src.col : Int)
  if rowDiff.natAbs ≠ colDiff.natAbs then false
  else if rowDiff = 0 then false
  else if (match maxDistance with
           | some m => decide (m < rowDiff.natAbs)
           | none => false) then false
  else
    let rowStep : Int := if 0 < rowDiff then 1 else -1
    let colStep : Int := if 0 < colDiff then 1 else -1
    (List.range' 1 (rowDiff.natAbs - 1)).all fun i =>
      !cellBlockedI board ((src.row : Int) + i * rowStep) ((src.col : Int) + i * colStep)

/-- `posToIndex`: flatten a position to its row-major linear index. -/
def posToIndex (pos : Position) (cols : Nat) : Nat := pos.row * cols + pos.col

/-- `indexToPos`: the inverse flattening. -/
def indexToPos (index cols : Nat) : Position := ⟨index / cols, index % cols⟩

/-- `isHorizontalWrapPathClear`: every cell whose linear index lies strictly
between the endpoints' linear indices is free. -/
def isHorizontalWrapPathClear (board : Board) (src dst : Position) : Bool :=
  let cols := (board.headD []).length
  let fromIdx := posToIndex src cols
  let toIdx := posToIndex dst cols
  (List.range' (min fromIdx toIdx + 1)
      (max fromIdx toIdx - (min fromIdx toIdx + 1))).all
    fun idx => !cellBlocked board (indexToPos idx cols)

/-- `hasValidPath`: distinct positions joined by a row, column, diagonal or
linear-wrap clear path.  `options` is `PathOptions.maxDiagonalDistance`. -/
def hasValidPath (board : Board) (src dst : Position)
    (options : Option Nat := none) : Bool :=
  if src.row == dst.row && src.col == dst.col then false
  else
    (src.row == dst.row && isHorizontalPathClear board src dst) ||
    (src.col == dst.col && isVerticalPathClear board src dst) ||
    isDiagonalPathClear board src dst options ||
    isHorizontalWrapPathClear board src dst

/-- `canMatch`: both cells exist and hold digits, the digits are compatible,
and some clear path joins the positions. -/
def canMatch (board : Board) (pos1 pos2 : Position) : Bool :=
  match getCell board pos1, getCell board pos2 with
  | some c1, some c2 =>
    match c1.value, c2.value with
    | some v1, some v2 => canMatchValues v1 v2 && hasValidPath board pos1 pos2
    | _, _ => false
  | _, _ => false

/-- `removeMatch`: a new board with the two targeted cells emptied. -/
def removeMatch (board : Board) (pos1 pos2 : Position) : Board :=
  mapWithIdx (fun rowIdx row =>
    mapWithIdx (fun colIdx cell =>
      if (rowIdx = pos1.row ∧ colIdx = pos1.col) ∨
         (rowIdx = pos2.row ∧ colIdx = pos2.col) then
        { cell with value := none }
      else cell) 0 row) 0 board

/-- `getMatchDistance`: number of cells strictly between the two positions in
linear order (an `Int`, as the source subtracts 1 from the absolute gap). -/
def getMatchDistance (board : Board) (pos1 pos2 : Position) : Int :=
  let cols := (board.headD []).length
  (((posToIndex pos1 cols : Int) - (posToIndex pos2 cols : Int)).natAbs : Int) - 1

/-- `calculateScore`: sum of the two digits plus twice the match distance; 0
when either cell is missing or its value is falsy. -/
def calculateScore (board : Board) (pos1 pos2 : Position) : Int :=
  match getCell board pos1, getCell board pos2 with
  | some c1, some c2 =>
    if c1.value.getD 0 = 0 ∨ c2.value.getD 0 = 0 then 0
    else ((c1.value.getD 0 : Int) + (c2.value.getD 0 : Int)) +
      getMatchDistance board pos1 pos2 * 2
  | _, _ => 0

/-- `isBoardCleared`: every cell of every row is empty. -/
def isBoardCleared (board : Board) : Bool :=
  board.all fun row => row.all fun cell => cell.value.isNone

/-- `isRowCleared`: every cell of the row is empty. -/
def isRowCleared (row : List Cell) : Bool := row.all fun cell => cell.value.isNone

/-- `removeClearedRows`: drop fully cleared rows; if none was dropped return
the input itself, otherwise renumber every remaining cell's stored position. -/
def removeClearedRows (board : Board) : Board :=
  if (board.filter fun row => !isRowCleared row).length = board.length then board
  else
    mapWithIdx (fun newRowIndex row =>
      mapWithIdx (fun colIndex cell =>
        { cell with position := ⟨newRowIndex, colIndex⟩ }) 0 row) 0
      (board.filter fun row => !isRowCleared row)

/-- Modelled from the spec: `findAnyValidPair` (`findValidPair` in the callers)
is imported from `gameLogic` but absent from the repository's sources; per the
spec it runs the same exhaustive scan as `anyValidMatchExists` and returns the
first matching pair of positions, or none. -/
def findValidPair (board : Board) : Option (Position × Position) :=
  let rows := board.length
  let cols := (board.headD []).length
  let positions := (List.range rows).flatMap fun r =>
    (List.range cols).map fun c => (⟨r, c⟩ : Position)
  (positions.flatMap fun p1 => positions.map fun p2 => (p1, p2)).find?
    fun pq => canMatch board pq.1 pq.2

/-- A board is solvable when a finite sequence of `canMatch`-legal
`removeMatch` moves reaches a fully cleared board. -/
inductive Solvable : Board → Prop
  | cleared (board : Board) : isBoardCleared board = true → Solvable board
  | step (board : Board) (pos1 pos2 : Position) :
      canMatch board pos1 pos2 = true →
      Solvable (removeMatch board pos1 pos2) →
      Solvable board

/-! ## Well-formedness predicates (the spec's data-model invariants) -/

/-- A position is in bounds of the board (column bound from the first row,
matching `getCell`). -/
def InBounds (board : Board) (pos : Position) : Prop :=
  pos.row < board.length ∧ pos.col < (board.headD []).length

instance (board : Board) (pos : Position) : Decidable (InBounds board pos) := by
  unfold InBounds; infer_instance

/-- Every row has the first row's length: the spec's rectangular grid. -/
def rectangular (board : Board) : Bool :=
  board.all fun row => row.length == (board.headD []).length

/-- Every stored `Cell.position` equals the cell's actual indices. -/
def wellPositioned (board : Board) : Bool :=
  allWithIdx (fun i row => allWithIdx (fun j cell =>
    cell.position == ⟨i, j⟩) 0 row) 0 board

/-- Every stored digit is between 1 and 9: the spec's legal cell values. -/
def digitBoard (board : Board) : Bool :=
  board.all fun row => row.all fun cell =>
    match cell.value with
    | none => true
    | some v => decide (1 ≤ v) && decide (v ≤ 9)

/-- Build one row of cells from optional values, with correct stored positions. -/
def rowOf (r : Nat) (vs : List (Option Nat)) : List Cell :=
  mapWithIdx (fun c v => ⟨v, ⟨r, c⟩⟩) 0 vs

/-- Build a board from optional values, with correct stored positions. -/
def boardOf (vss : List (List (Option Nat))) : Board :=
  mapWithIdx (fun r vs => rowOf r vs) 0 vss

/-! ## C6: value-rule symmetry and characterisation -/

/-- C6: for all digits `a`, `b` in 1–9, `canMatchValues` is symmetric, and it is
true exactly when the digits are equal or sum to 10. -/
theorem canMatchValues_symm_iff (a b : Nat)
    (ha1 : 1 ≤ a) (ha9 : a ≤ 9) (hb1 : 1 ≤ b) (hb9 : b ≤ 9) :
    canMatchValues a b = canMatchValues b a ∧
      (canMatchValues a b = true ↔ a = b ∨ a + b = 10) := by
  interval_cases a <;> interval_cases b <;> exact ⟨rfl, by decide⟩

/-- C6 witness at a concrete pair of digits. -/
theorem canMatchValues_symm_iff_check :
    canMatchValues 3 7 = canMatchValues 7 3 ∧
      (canMatchValues 3 7 = true ↔ 3 = 7 ∨ 3 + 7 = 10) :=
  canMatchValues_symm_iff 3 7 (by decide) (by decide) (by decide) (by decide)

/-! ## C10: frame property of `removeMatch` -/

theorem removeMatch_cellAt (board : Board) (pos1 pos2 : Position) (i j : Nat) :
    cellAt? (removeMatch board pos1 pos2) i j =
      (cellAt? board i j).map fun cell =>
        if (i = pos1.row ∧ j = pos1.col) ∨ (i = pos2.row ∧ j = pos2.col) then
          { cell with value := none }
        else cell := by
  unfold cellAt? removeMatch
  rw [mapWithIdx_get?]
  cases h : board.get? i with
  | none => simp
  | some row =>
    simp only [Option.map_some', Option.some_bind, Nat.zero_add]
    rw [mapWithIdx_get?]
    cases hc : row.get? j with
    | none => simp
    | some cell => simp

theorem removeMatch_length (board : Board) (pos1 pos2 : Position) :
    (removeMatch board pos1 pos2).length = board.length :=
  mapWithIdx_length _ _ _

theorem removeMatch_rowlen (board : Board) (pos1 pos2 : Position) (i : Nat) :
    ((removeMatch board pos1 pos2).getD i []).length = (board.getD i []).length := by
  unfold removeMatch
  rw [List.getD_eq_getD_get?, List.getD_eq_getD_get?, mapWithIdx_get?]
  cases h : board.get? i with
  | none => simp
  | some row => simp [mapWithIdx_length]

/-- C10: `removeMatch` keeps the shape of the board, empties exactly the two
targeted cells (keeping their stored positions), and leaves every other cell
unchanged; being a pure function of the input it cannot mutate it. -/
theorem removeMatch_frame (board : Board) (pos1 pos2 : Position)
    (_h1 : InBounds board pos1) (_h2 : InBounds board pos2) :
    (removeMatch board pos1 pos2).length = board.length ∧
    (∀ i, ((removeMatch board pos1 pos2).getD i []).length = (board.getD i []).length) ∧
    (∀ i j, cellAt? (removeMatch board pos1 pos2) i j =
      (cellAt? board i j).map fun cell =>
        if (i = pos1.row ∧ j = pos1.col) ∨ (i = pos2.row ∧ j = pos2.col) then
          { cell with value := none }
        else cell) :=
  ⟨removeMatch_length board pos1 pos2, removeMatch_rowlen board pos1 pos2,
    removeMatch_cellAt board pos1 pos2⟩

/-- A concrete two-cell board used by several witnesses. -/
def exPairBoard : Board := boardOf [[some 3, some 7]]

/-- C10 witness at a concrete board and pair of in-bounds positions. -/
theorem removeMatch_frame_check :
    (removeMatch exPairBoard ⟨0, 0⟩ ⟨0, 1⟩).length = exPairBoard.length :=
  (removeMatch_frame exPairBoard ⟨0, 0⟩ ⟨0, 1⟩ (by decide) (by decide)).1

/-! ## C3: match distance and score -/

/-- Values stored in a digit board are digits 1–9. -/
theorem digitBoard_value (board : Board) (hd : digitBoard board = true)
    (pos : Position) (c : Cell) (h : getCell board pos = some c) (v : Nat)
    (hv : c.value = some v) : 1 ≤ v ∧ v ≤ 9 := by
  unfold getCell at h
  split at h
  · exact absurd h (by simp)
  · split at h
    · exact absurd h (by simp)
    · next hrow _ =>
      have hrow' : pos.row < board.length := Nat.lt_of_not_le hrow
      have hmemrow : board.getD pos.row [] ∈ board := by
        rw [List.getD_eq_getD_get?]
        cases hg : board.get? pos.row with
        | none => exact absurd (List.get?_eq_none.mp hg) (Nat.not_le_of_lt hrow')
        | some row => exact List.get?_mem hg
      have hmemc : c ∈ board.getD pos.row [] := List.get?_mem h
      have := (List.all_eq_true.mp hd) _ hmemrow
      have := (List.all_eq_true.mp this) _ hmemc
      rw [hv] at this
      simpa using this

/-- C3: the match distance is the absolute difference of linear indices minus
one, and the score is the sum of the two digits plus twice that distance for
non-empty cells, or 0 when either cell is empty; in particular adjacent cells
score the plain digit sum, 3 and 7 with two cells between score 14, and 5 and
5 with four cells between score 18. -/
theorem calculateScore_spec (board : Board) (pos1 pos2 : Position) (c1 c2 : Cell)
    (hget1 : getCell board pos1 = some c1) (hget2 : getCell board pos2 = some c2)
    (_hne : pos1 ≠ pos2) (hd : digitBoard board = true) :
    (getMatchDistance board pos1 pos2 =
      |(posToIndex pos1 (board.headD []).length : Int) -
        (posToIndex pos2 (board.headD []).length : Int)| - 1) ∧
    (∀ v1 v2, c1.value = some v1 → c2.value = some v2 →
      calculateScore board pos1 pos2 =
        ((v1 : Int) + (v2 : Int)) + 2 * getMatchDistance board pos1 pos2) ∧
    ((c1.value = none ∨ c2.value = none) → calculateScore board pos1 pos2 = 0) ∧
    calculateScore (boardOf [[some 3, some 7]]) ⟨0, 0⟩ ⟨0, 1⟩ = 3 + 7 ∧
    calculateScore (boardOf [[some 3, none, none, some 7]]) ⟨0, 0⟩ ⟨0, 3⟩ = 14 ∧
    calculateScore (boardOf [[some 5, none, none, none, none, some 5]]) ⟨0, 0⟩ ⟨0, 5⟩ = 18 := by
  refine ⟨?_, ?_, ?_, by decide, by decide, by decide⟩
  · unfold getMatchDistance
    rw [Int.abs_eq_natAbs]
  · intro v1 v2 hv1 hv2
    have hb1 := digitBoard_value board hd pos1 c1 hget1 v1 hv1
    have hb2 := digitBoard_value board hd pos2 c2 hget2 v2 hv2
    unfold calculateScore
    rw [hget1, hget2]
    dsimp only
    rw [hv1, hv2]
    simp only [Option.getD_some]
    rw [if_neg (by omega)]
    ring
  · intro hnone
    unfold calculateScore
    rw [hget1, hget2]
    dsimp only
    rcases hnone with h | h <;> rw [h] <;> simp

/-- C3 witness at a concrete board and positions. -/
theorem calculateScore_spec_check :
    calculateScore exPairBoard ⟨0, 0⟩ ⟨0, 1⟩ =
      ((3 : Int) + (7 : Int)) + 2 * getMatchDistance exPairBoard ⟨0, 0⟩ ⟨0, 1⟩ :=
  (calculateScore_spec exPairBoard ⟨0, 0⟩ ⟨0, 1⟩ ⟨some 3, ⟨0, 0⟩⟩ ⟨some 7, ⟨0, 1⟩⟩
    (by decide) (by decide) (by decide) (by decide)).2.1 3 7 rfl rfl

/-! ## C9: the wrap-around scenario -/

/-- The spec's wrap-around example grid, row-major `[[1,2,3],[4,5,6]]`. -/
def wrapBoard : Board := boardOf [[some 1, some 2, some 3], [some 4, some 5, some 6]]

/-- C9: on `[[1,2,3],[4,5,6]]` the pair (0,2)–(1,0) is joined by a valid path,
the row, column and diagonal rules all fail, the linear-wrap rule holds, the
two linear indices are 2 and 3, and the list of linear indices strictly
between them is empty (so no blocking cell can ever lie between them). -/
theorem wrapBoard_scenario :
    hasValidPath wrapBoard ⟨0, 2⟩ ⟨1, 0⟩ none = true ∧
    isHorizontalPathClear wrapBoard ⟨0, 2⟩ ⟨1, 0⟩ = false ∧
    isVerticalPathClear wrapBoard ⟨0, 2⟩ ⟨1, 0⟩ = false ∧
    isDiagonalPathClear wrapBoard ⟨0, 2⟩ ⟨1, 0⟩ none = false ∧
    isHorizontalWrapPathClear wrapBoard ⟨0, 2⟩ ⟨1, 0⟩ = true ∧
    posToIndex ⟨0, 2⟩ 3 = 2 ∧ posToIndex ⟨1, 0⟩ 3 = 3 ∧
    List.range' (min (posToIndex ⟨0, 2⟩ 3) (posToIndex ⟨1, 0⟩ 3) + 1)
      (max (posToIndex ⟨0, 2⟩ 3) (posToIndex ⟨1, 0⟩ 3) -
        (min (posToIndex ⟨0, 2⟩ 3) (posToIndex ⟨1, 0⟩ 3) + 1)) = [] := by
  decide

/-! ## C5: row pruning -/

theorem filter_eq_self_of_length (p : α → Bool) (l : List α)
    (h : (l.filter p).length = l.length) : l.filter p = l := by
  induction l with
  | nil => rfl
  | cons a as ih =>
    by_cases hp : p a
    · simp only [List.filter_cons, hp, if_true, List.length_cons] at h ⊢
      exact congrArg (a :: ·) (ih (by omega))
    · simp only [List.filter_cons, hp, Bool.false_eq_true, if_false, List.length_cons] at h
      have := List.length_filter_le p as
      omega

theorem renumber_map_value (g : Nat → Position) (s : Nat) (row : List Cell) :
    (mapWithIdx (fun j cell => { cell with position := g j }) s row).map Cell.value =
      row.map Cell.value := by
  induction row generalizing s with
  | nil => rfl
  | cons c cs ih => simp [mapWithIdx, ih]

theorem renumber_values (rows : Board) (s : Nat) :
    (mapWithIdx (fun i row => mapWithIdx (fun j cell =>
        { cell with position := ⟨i, j⟩ }) 0 row) s rows).map (fun row => row.map Cell.value) =
      rows.map (fun row => row.map Cell.value) := by
  induction rows generalizing s with
  | nil => rfl
  | cons r rs ih =>
    simp only [mapWithIdx, List.map_cons, ih]
    rw [renumber_map_value (fun j => ⟨s, j⟩) 0 r]

theorem renumber_wellPositioned (rows : Board) :
    wellPositioned (mapWithIdx (fun i row => mapWithIdx (fun j cell =>
        { cell with position := ⟨i, j⟩ }) 0 row) 0 rows) = true := by
  unfold wellPositioned
  rw [allWithIdx_eq_true]
  intro n row' hrow'
  rw [mapWithIdx_get?] at hrow'
  cases hget : rows.get? n with
  | none => rw [hget] at hrow'; cases hrow'
  | some row =>
    rw [hget] at hrow'
    simp only [Option.map_some', Option.some.injEq, Nat.zero_add] at hrow'
    subst hrow'
    rw [allWithIdx_eq_true]
    intro j cell hcell
    rw [mapWithIdx_get?] at hcell
    cases hc : row.get? j with
    | none => rw [hc] at hcell; cases hcell
    | some c =>
      rw [hc] at hcell
      simp only [Option.map_some', Option.some.injEq, Nat.zero_add] at hcell
      subst hcell
      simp

/-- C5: `removeClearedRows` keeps exactly the rows that are not fully empty
(in order, with their values), renumbers every remaining cell's stored
position to its actual indices, and returns the input itself when no row is
fully empty. -/
theorem removeClearedRows_spec (board : Board) (hw : wellPositioned board = true) :
    ((removeClearedRows board).map (fun row => row.map Cell.value) =
      (board.filter fun row => !isRowCleared row).map (fun row => row.map Cell.value)) ∧
    wellPositioned (removeClearedRows board) = true ∧
    ((∀ row ∈ board, isRowCleared row = false) → removeClearedRows board = board) := by
  unfold removeClearedRows
  by_cases h : (board.filter fun row => !isRowCleared row).length = board.length
  · rw [if_pos h]
    have hfe : board.filter (fun row => !isRowCleared row) = board :=
      filter_eq_self_of_length _ _ h
    exact ⟨by rw [hfe], hw, fun _ => rfl⟩
  · rw [if_neg h]
    refine ⟨renumber_values _ 0, renumber_wellPositioned _, fun hall => ?_⟩
    exfalso
    apply h
    rw [List.filter_eq_self.mpr]
    intro a ha
    simp [hall a ha]

/-- A board whose middle row is fully cleared. -/
def exPruneBoard : Board := boardOf [[some 1], [none], [some 9]]

/-- C5 witness at a concrete board with a fully-empty row. -/
theorem removeClearedRows_spec_check :
    (removeClearedRows exPruneBoard).map (fun row => row.map Cell.value) =
      (exPruneBoard.filter fun row => !isRowCleared row).map (fun row => row.map Cell.value) :=
  (removeClearedRows_spec exPruneBoard (by decide)).1

/-! ## C2: the four path rules, stated the spec's way -/

/-- The cell at a position is empty (an absent cell never obstructs). -/
def EmptyAt (board : Board) (pos : Position) : Prop :=
  ∀ c, getCell board pos = some c → c.value = none

/-- Emptiness at signed coordinates: trivially true off the board's
non-negative quadrant, matching the source's `getCell` guards. -/
def EmptyAtI (board : Board) (row col : Int) : Prop :=
  0 ≤ row → 0 ≤ col → EmptyAt board ⟨row.toNat, col.toNat⟩

/-- Spec row rule: same row and every cell strictly between the columns empty. -/
def RowRule (board : Board) (src dst : Position) : Prop :=
  src.row = dst.row ∧
  ∀ col, min src.col dst.col < col → col < max src.col dst.col →
    EmptyAt board ⟨src.row, col⟩

/-- Spec column rule: same column and every cell strictly between the rows empty. -/
def ColRule (board : Board) (src dst : Position) : Prop :=
  src.col = dst.col ∧
  ∀ row, min src.row dst.row < row → row < max src.row dst.row →
    EmptyAt board ⟨row, src.col⟩

/-- Spec diagonal rule: equal nonzero absolute row/column difference, an
optional cap on it, and every diagonal step strictly between empty. -/
def DiagRule (board : Board) (src dst : Position) (maxDistance : Option Nat) : Prop :=
  ((dst.row : Int) - (src.row : Int)).natAbs = ((dst.col : Int) - (src.col : Int)).natAbs ∧
  0 < ((dst.row : Int) - (src.row : Int)).natAbs ∧
  (∀ m, maxDistance = some m → ((dst.row : Int) - (src.row : Int)).natAbs ≤ m) ∧
  (∀ i : Nat, 1 ≤ i → i < ((dst.row : Int) - (src.row : Int)).natAbs →
    EmptyAtI board
      ((src.row : Int) + i * (if 0 < (dst.row : Int) - (src.row : Int) then 1 else -1))
      ((src.col : Int) + i * (if 0 < (dst.col : Int) - (src.col : Int) then 1 else -1)))

/-- Spec linear-wrap rule: every cell whose row-major linear index lies
strictly between the endpoints' linear indices is empty. -/
def WrapRule (board : Board) (src dst : Position) : Prop :=
  ∀ idx,
    min (posToIndex src (board.headD []).length) (posToIndex dst (board.headD []).length) < idx →
    idx < max (posToIndex src (board.headD []).length) (posToIndex dst (board.headD []).length) →
    EmptyAt board (indexToPos idx (board.headD []).length)

theorem cellBlocked_eq_false_iff (board : Board) (pos : Position) :
    cellBlocked board pos = false ↔ EmptyAt board pos := by
  unfold cellBlocked EmptyAt
  cases h : getCell board pos with
  | none => simp
  | some c => cases hv : c.value <;> simp [hv]

theorem not_cellBlocked_iff (board : Board) (pos : Position) :
    (!cellBlocked board pos) = true ↔ EmptyAt board pos := by
  cases hb : cellBlocked board pos with
  | false => simpa using (cellBlocked_eq_false_iff board pos).mp hb
  | true =>
    simp only [Bool.not_true, Bool.false_eq_true, false_iff]
    intro hemp
    have := (cellBlocked_eq_false_iff board pos).mpr hemp
    rw [hb] at this
    cases this

theorem not_cellBlockedI_iff (board : Board) (row col : Int) :
    (!cellBlockedI board row col) = true ↔ EmptyAtI board row col := by
  unfold cellBlockedI EmptyAtI
  by_cases hneg : (decide (row < 0) || decide (col < 0)) = true
  · rw [if_pos hneg]
    simp only [Bool.not_false, true_iff]
    simp only [Bool.or_eq_true, decide_eq_true_eq] at hneg
    intro h0r h0c
    omega
  · rw [if_neg hneg]
    simp only [Bool.or_eq_true, decide_eq_true_eq, not_or, Int.not_lt] at hneg
    rw [not_cellBlocked_iff]
    exact ⟨fun h _ _ => h, fun h => h hneg.1 hneg.2⟩

theorem range'_all_iff (f : Nat → Bool) (s n : Nat) :
    (List.range' s n).all f = true ↔ ∀ i, s ≤ i → i < s + n → f i = true := by
  rw [List.all_eq_true]
  constructor
  · intro h i h1 h2
    exact h i (List.mem_range'_1.mpr ⟨h1, h2⟩)
  · intro h i hi
    have := List.mem_range'_1.mp hi
    exact h i this.1 this.2

theorem horizontal_rule_iff (board : Board) (src dst : Position) :
    (src.row = dst.row ∧ isHorizontalPathClear board src dst = true) ↔
      RowRule board src dst := by
  unfold isHorizontalPathClear RowRule
  constructor
  · rintro ⟨hr, hc⟩
    rw [if_neg (by simp [hr])] at hc
    refine ⟨hr, fun col hlo hhi => ?_⟩
    exact (not_cellBlocked_iff _ _).mp
      ((range'_all_iff _ _ _).mp hc col (by omega) (by omega))
  · rintro ⟨hr, hc⟩
    refine ⟨hr, ?_⟩
    rw [if_neg (by simp [hr])]
    exact (range'_all_iff _ _ _).mpr fun i hi1 hi2 =>
      (not_cellBlocked_iff _ _).mpr (hc i (by omega) (by omega))

theorem vertical_rule_iff (board : Board) (src dst : Position) :
    (src.col = dst.col ∧ isVerticalPathClear board src dst = true) ↔
      ColRule board src dst := by
  unfold isVerticalPathClear ColRule
  constructor
  · rintro ⟨hr, hc⟩
    rw [if_neg (by simp [hr])] at hc
    refine ⟨hr, fun row hlo hhi => ?_⟩
    exact (not_cellBlocked_iff _ _).mp
      ((range'_all_iff _ _ _).mp hc row (by omega) (by omega))
  · rintro ⟨hr, hc⟩
    refine ⟨hr, ?_⟩
    rw [if_neg (by simp [hr])]
    exact (range'_all_iff _ _ _).mpr fun i hi1 hi2 =>
      (not_cellBlocked_iff _ _).mpr (hc i (by omega) (by omega))

theorem wrap_rule_iff (board : Board) (src dst : Position) :
    isHorizontalWrapPathClear board src dst = true ↔ WrapRule board src dst := by
  simp only [isHorizontalWrapPathClear]
  unfold WrapRule
  constructor
  · intro hc idx hlo hhi
    exact (not_cellBlocked_iff _ _).mp
      ((range'_all_iff _ _ _).mp hc idx (by omega) (by omega))
  · intro hc
    exact (range'_all_iff _ _ _).mpr fun i hi1 hi2 =>
      (not_cellBlocked_iff _ _).mpr (hc i (by omega) (by omega))

theorem diagonal_rule_iff (board : Board) (src dst : Position) (maxD : Option Nat) :
    isDiagonalPathClear board src dst maxD = true ↔ DiagRule board src dst maxD := by
  simp only [isDiagonalPathClear]
  unfold DiagRule
  by_cases h1 : ((dst.row : Int) - (src.row : Int)).natAbs =
      ((dst.col : Int) - (src.col : Int)).natAbs
  · rw [if_neg (by simpa using h1)]
    by_cases h2 : (dst.row : Int) - (src.row : Int) = 0
    · rw [if_pos h2]
      have : ¬ 0 < ((dst.row : Int) - (src.row : Int)).natAbs := by
        simp [h2]
      simp [this]
    · rw [if_neg h2]
      have hpos : 0 < ((dst.row : Int) - (src.row : Int)).natAbs :=
        Int.natAbs_pos.mpr h2
      have hloop : (List.range' 1 (((dst.row : Int) - (src.row : Int)).natAbs - 1)).all
            (fun i => !cellBlockedI board
              ((src.row : Int) + i * (if 0 < (dst.row : Int) - (src.row : Int) then 1 else -1))
              ((src.col : Int) + i * (if 0 < (dst.col : Int) - (src.col : Int) then 1 else -1)))
            = true ↔
          ∀ i : Nat, 1 ≤ i → i < ((dst.row : Int) - (src.row : Int)).natAbs →
            EmptyAtI board
              ((src.row : Int) + i * (if 0 < (dst.row : Int) - (src.row : Int) then 1 else -1))
              ((src.col : Int) + i * (if 0 < (dst.col : Int) - (src.col : Int) then 1 else -1)) := by
        rw [range'_all_iff]
        constructor
        · intro h i hi1 hi2
          exact (not_cellBlockedI_iff _ _ _).mp (h i (by omega) (by omega))
        · intro h i hi1 hi2
          exact (not_cellBlockedI_iff _ _ _).mpr (h i (by omega) (by omega))
      cases maxD with
      | none =>
        rw [if_neg (by simp)]
        rw [hloop]
        constructor
        · intro h
          refine ⟨h1, hpos, ?_, h⟩
          intro m hm
          exact Option.noConfusion hm
        · rintro ⟨-, -, -, h⟩
          exact h
      | some m =>
        by_cases h3 : m < ((dst.row : Int) - (src.row : Int)).natAbs
        · rw [if_pos (by simpa using h3)]
          constructor
          · intro h; cases h
          · rintro ⟨-, -, hcap, -⟩
            exact absurd (hcap m rfl) (by omega)
        · rw [if_neg (by simpa using h3)]
          rw [hloop]
          constructor
          · intro h
            exact ⟨h1, hpos, fun m' hm' => by cases hm'; omega, h⟩
          · rintro ⟨-, -, -, h⟩
            exact h
  · rw [if_pos (by simpa using h1)]
    simp [h1]

/-- C2: `hasValidPath` holds exactly when the endpoints differ and at least
one of the spec's four independently stated rules (row, column, diagonal with
optional cap, linear wrap) holds. -/
theorem hasValidPath_spec (board : Board) (src dst : Position) (maxD : Option Nat)
    (_hin1 : InBounds board src) (_hin2 : InBounds board dst) :
    hasValidPath board src dst maxD = true ↔
      src ≠ dst ∧ (RowRule board src dst ∨ ColRule board src dst ∨
        DiagRule board src dst maxD ∨ WrapRule board src dst) := by
  unfold hasValidPath
  by_cases hsame : src = dst
  · subst hsame
    rw [if_pos (by simp)]
    simp
  · have hcond : ¬((src.row == dst.row && src.col == dst.col) = true) := by
      simp only [Bool.and_eq_true, beq_iff_eq]
      rintro ⟨a, b⟩
      exact hsame (by cases src; cases dst; simp_all)
    rw [if_neg hcond]
    simp only [Bool.or_eq_true, Bool.and_eq_true, beq_iff_eq]
    rw [or_assoc, or_assoc]
    rw [horizontal_rule_iff, vertical_rule_iff, diagonal_rule_iff, wrap_rule_iff]
    simp [hsame]

/-- C2 witness at a concrete board and in-bounds positions. -/
theorem hasValidPath_spec_check :
    hasValidPath exPairBoard ⟨0, 0⟩ ⟨0, 1⟩ none = true ↔
      (⟨0, 0⟩ : Position) ≠ ⟨0, 1⟩ ∧
        (RowRule exPairBoard ⟨0, 0⟩ ⟨0, 1⟩ ∨ ColRule exPairBoard ⟨0, 0⟩ ⟨0, 1⟩ ∨
          DiagRule exPairBoard ⟨0, 0⟩ ⟨0, 1⟩ none ∨ WrapRule exPairBoard ⟨0, 0⟩ ⟨0, 1⟩) :=
  hasValidPath_spec exPairBoard ⟨0, 0⟩ ⟨0, 1⟩ none (by decide) (by decide)

/-! ## `boardGenerator.ts`: randomness model and helpers -/

/-- A deterministic stream of naturals standing in for `Math.random()`: `seq`
gives the draws and `idx` is the next unread one.  Theorems quantify over
every stream, covering every possible run of the program. -/
structure Rng where
  seq : Nat → Nat
  idx : Nat

/-- Model of `Math.floor(Math.random() * n)`: an arbitrary value in `[0, n)`
(0 when `n = 0`). -/
def Rng.below (r : Rng) (n : Nat) : Nat × Rng :=
  (if n = 0 then 0 else r.seq r.idx % n, ⟨r.seq, r.idx + 1⟩)

/-- Model of a `Math.random() < num/den` coin flip. -/
def Rng.chance (r : Rng) (num den : Nat) : Bool × Rng :=
  (decide (r.seq r.idx % den < num), ⟨r.seq, r.idx + 1⟩)

theorem Rng.below_lt (r : Rng) (n : Nat) (h : 0 < n) : (r.below n).1 < n := by
  unfold Rng.below
  simp only [Nat.pos_iff_ne_zero.mp h, if_neg (Nat.pos_iff_ne_zero.mp h)]
  exact Nat.mod_lt _ h

/-- `ALL_DIGITS` from the generator. -/
def ALL_DIGITS : List Nat := [1, 2, 3, 4, 5, 6, 7, 8, 9]

/-- `getValidPairs`: every same-digit pair, plus the sum-to-10 pair when the
complement is a distinct available digit. -/
def getValidPairs (availableDigits : List Nat) : List (Nat × Nat) :=
  availableDigits.flatMap fun d1 =>
    (d1, d1) ::
      (if 10 - d1 ≠ d1 ∧ 1 ≤ 10 - d1 ∧ 10 - d1 ≤ 9 ∧ availableDigits.contains (10 - d1) then
        [(d1, 10 - d1)]
      else [])

/-- Swap two list entries (the source's destructuring swap; indices are in
range at every call site). -/
def swapIdx (l : List α) (i j : Nat) : List α :=
  match l.get? i, l.get? j with
  | some a, some b => (l.set i b).set j a
  | _, _ => l

/-- The Fisher-Yates loop of `shuffle`, on index `i` counting down to 1. -/
def shuffleAux : Rng → List α → Nat → List α × Rng
  | rng, l, 0 => (l, rng)
  | rng, l, i + 1 =>
    let (j, rng') := rng.below (i + 2)
    shuffleAux rng' (swapIdx l (i + 1) j) i

/-- `shuffle`: Fisher-Yates over a fresh copy, with explicit randomness. -/
def shuffle (l : List α) (rng : Rng) : List α × Rng :=
  shuffleAux rng l (l.length - 1)

theorem swapIdx_length (l : List α) (i j : Nat) : (swapIdx l i j).length = l.length := by
  unfold swapIdx
  split <;> simp

theorem shuffleAux_length (n : Nat) :
    ∀ (rng : Rng) (l : List α), (shuffleAux rng l n).1.length = l.length := by
  induction n with
  | zero => intro rng l; rfl
  | succ n ih =>
    intro rng l
    show (shuffleAux _ (swapIdx l (n + 1) _) n).1.length = l.length
    rw [ih, swapIdx_length]

theorem shuffle_length (l : List α) (rng : Rng) : (shuffle l rng).1.length = l.length :=
  shuffleAux_length _ _ _

/-- `createEmptyBoard`: `rows × cols` empty cells with correct positions. -/
def createEmptyBoard (rows cols : Nat) : Board :=
  (List.range rows).map fun row => (List.range cols).map fun col =>
    (⟨none, ⟨row, col⟩⟩ : Cell)

/-- In-place list update at an index (identity when out of range). -/
def listModify (f : α → α) : Nat → List α → List α
  | _, [] => []
  | 0, a :: as => f a :: as
  | n + 1, a :: as => a :: listModify f n as

/-- Functional form of the source's `board[pos.row][pos.col].value = v`. -/
def setCellValue (board : Board) (pos : Position) (v : Option Nat) : Board :=
  listModify (fun row => listModify (fun cell => { cell with value := v }) pos.col row)
    pos.row board

theorem listModify_length (f : α → α) (n : Nat) (l : List α) :
    (listModify f n l).length = l.length := by
  induction l generalizing n with
  | nil => cases n <;> rfl
  | cons a as ih => cases n <;> simp [listModify, ih]

theorem listModify_get? (f : α → α) (n : Nat) (l : List α) (m : Nat) :
    (listModify f n l).get? m = if m = n then (l.get? m).map f else l.get? m := by
  induction l generalizing n m with
  | nil => simp [listModify]
  | cons a as ih =>
    cases n with
    | zero => cases m <;> simp [listModify]
    | succ n =>
      cases m with
      | zero => simp [listModify]
      | succ m => simpa [listModify] using ih n m

/-- `countAdjacentMatches`: how many of the 8 grid neighbours plus the two
wrap-adjacent cells hold a value matching `value` (same digit or sum 10). -/
def countAdjacentMatches (board : Board) (pos : Position) (value : Nat) : Nat :=
  let rows := board.length
  let cols := (board.headD []).length
  let base : List (Int × Int) :=
    [((pos.row : Int) - 1, (pos.col : Int) - 1),
     ((pos.row : Int) - 1, (pos.col : Int)),
     ((pos.row : Int) - 1, (pos.col : Int) + 1),
     ((pos.row : Int), (pos.col : Int) - 1),
     ((pos.row : Int), (pos.col : Int) + 1),
     ((pos.row : Int) + 1, (pos.col : Int) - 1),
     ((pos.row : Int) + 1, (pos.col : Int)),
     ((pos.row : Int) + 1, (pos.col : Int) + 1)]
  let linearIdx := pos.row * cols + pos.col
  let wrapPrev : List (Int × Int) :=
    if 0 < linearIdx then [((((linearIdx - 1) / cols : Nat) : Int), (((linearIdx - 1) % cols : Nat) : Int))]
    else []
  let wrapNext : List (Int × Int) :=
    if linearIdx < rows * cols - 1 then
      [((((linearIdx + 1) / cols : Nat) : Int), (((linearIdx + 1) % cols : Nat) : Int))]
    else []
  ((base ++ wrapPrev ++ wrapNext).filter fun rc : Int × Int =>
    if rc.1 < 0 ∨ (rows : Int) ≤ rc.1 ∨ rc.2 < 0 ∨ (cols : Int) ≤ rc.2 then false
    else
      match ((board.getD rc.1.toNat []).getD rc.2.toNat ⟨none, ⟨0, 0⟩⟩).value with
      | none => false
      | some nv => nv == value || nv + value == 10).length

/-- One scored candidate of `generateBestPair`. -/
structure PairCandidate where
  pair : Nat × Nat
  score : Nat

/-- `generateBestPair`: shuffle the legal value pairs, score each (and its
swap) by accidental adjacent matches, sort by score, then pick the best, or
one of the five best 20% of the time.  Throws when no pair is available. -/
def generateBestPair (board : Board) (pos1 pos2 : Position)
    (availableDigits : List Nat) (rng : Rng) : Except String ((Nat × Nat) × Rng) :=
  match shuffle (getValidPairs availableDigits) rng with
  | (allPairs, rng1) =>
    if allPairs.isEmpty then .error "No available digit pairs"
    else
      let candidates := allPairs.flatMap fun p =>
        (⟨p, countAdjacentMatches board pos1 p.1 + countAdjacentMatches board pos2 p.2⟩ :
            PairCandidate) ::
          (if p.1 ≠ p.2 then
            [(⟨(p.2, p.1),
                countAdjacentMatches board pos1 p.2 + countAdjacentMatches board pos2 p.1⟩ :
              PairCandidate)]
          else [])
      let sorted := candidates.mergeSort fun a b => a.score ≤ b.score
      match rng1.chance 8 10 with
      | (pickBest, rng2) =>
        if pickBest || decide (sorted.length < 5) then
          match sorted with
          | c :: _ => .ok (c.pair, rng2)
          | [] => .error "no candidates"
        else
          match rng2.below 5 with
          | (i, rng3) =>
            match sorted.get? i with
            | some c => .ok (c.pair, rng3)
            | none => .error "no candidates"

/-- `getDifficultyFactor`, with `Number` arithmetic as exact rationals. -/
def getDifficultyFactor (stage : Nat) : ℚ := min 1 (max (1 / 10) ((stage : ℚ) / 10))

/-- The difficulty configuration derived from the stage. -/
structure DifficultyConfig where
  minDistRatioQ : ℚ
  maxDistRatioQ : ℚ
  preferFar : Bool

/-- `getDifficultyConfig`, with `Number` arithmetic as exact rationals. -/
def getDifficultyConfig (stage : Nat) : DifficultyConfig :=
  { minDistRatioQ := 4 / 100 * (getDifficultyFactor stage - 1 / 10) / (9 / 10)
    maxDistRatioQ := 25 / 100 + 45 / 100 * (getDifficultyFactor stage - 1 / 10) / (9 / 10)
    preferFar := decide ((1 : ℚ) / 2 < getDifficultyFactor stage) }

/-- Snake-ordered positions: even rows left to right, odd ones right to left. -/
def snakePositions (rows cols : Nat) : List Position :=
  (List.range rows).flatMap fun row =>
    if row % 2 = 0 then (List.range cols).map fun col => (⟨row, col⟩ : Position)
    else ((List.range cols).reverse).map fun col => (⟨row, col⟩ : Position)

/-- The descending gap search of `tryGenerateSolvableBoard`: try gaps from
`tryGap` down to 1, returning the first second-endpoint index (into
`remaining`) whose position has a clear path from `pos1`. -/
def tryGapLoop (board : Board) (snake : List Position) (remaining : List Nat)
    (idx1 : Nat) (pos1 : Position) : Nat → Option Nat
  | 0 => none
  | g + 1 =>
    let idx2 := idx1 + (g + 1)
    if remaining.length ≤ idx2 then tryGapLoop board snake remaining idx1 pos1 g
    else if hasValidPath board pos1 (snake.getD (remaining.getD idx2 0) ⟨0, 0⟩) then some idx2
    else tryGapLoop board snake remaining idx1 pos1 g

/-- The any-gap fallback scan: the first index into `remaining` other than
`idx1` whose position has a clear path from `pos1`. -/
def scanLoop (board : Board) (snake : List Position) (remaining : List Nat)
    (idx1 : Nat) (pos1 : Position) : Option Nat :=
  (List.range remaining.length).find? fun idx2 =>
    idx2 != idx1 && hasValidPath board pos1 (snake.getD (remaining.getD idx2 0) ⟨0, 0⟩)

/-- The backtracking first-endpoint loop: try the first few indices of
`remaining` as `pos1`, each with the gap search then the fallback scan. -/
def pos1TryLoop (board : Board) (snake : List Position) (remaining : List Nat)
    (maxGap : Nat) : Nat → Nat → Option (Nat × Nat)
  | 0, _ => none
  | t + 1, pos1Try =>
    let idx1 := pos1Try
    let pos1 := snake.getD (remaining.getD idx1 0) ⟨0, 0⟩
    let targetGap := min maxGap (remaining.length - 1)
    match tryGapLoop board snake remaining idx1 pos1 targetGap with
    | some idx2 => some (idx1, idx2)
    | none =>
      match scanLoop board snake remaining idx1 pos1 with
      | some idx2 => some (idx1, idx2)
      | none => pos1TryLoop board snake remaining maxGap t (pos1Try + 1)

/-- The pair-placement loop of `tryGenerateSolvableBoard`: one iteration per
pair, threading the board, the unused snake indices and the randomness;
`none` abandons the attempt. -/
def pairLoop (totalPairs : Nat) (config : DifficultyConfig) (snake : List Position)
    (availableDigits : List Nat) :
    Nat → Board → List Nat → Rng → Except String (Option Board × Rng)
  | 0, board, _, rng => .ok (some board, rng)
  | k + 1, board, remaining, rng =>
    if remaining.length < 2 then .ok (none, rng)
    else
      let pairIdx := totalPairs - (k + 1)
      let progress : ℚ := (pairIdx : ℚ) / (totalPairs : ℚ)
      let maxGap : Nat :=
        if progress < 1 / 2 then
          if config.preferFar then min (remaining.length - 1) 15
          else min (remaining.length - 1) 8
        else
          max 1 (⌊(1 - (progress - 1 / 2) * 2) * 5⌋).toNat
      match pos1TryLoop board snake remaining maxGap (min 5 remaining.length) 0 with
      | none => .ok (none, rng)
      | some (i1, i2) =>
        let pos1 := snake.getD (remaining.getD i1 0) ⟨0, 0⟩
        let pos2 := snake.getD (remaining.getD i2 0) ⟨0, 0⟩
        match generateBestPair board pos1 pos2 availableDigits rng with
        | .error e => .error e
        | .ok (vals, rng') =>
          let board' := setCellValue (setCellValue board pos1 (some vals.1)) pos2 (some vals.2)
          let remaining' :=
            if i1 < i2 then (remaining.eraseIdx i2).eraseIdx i1
            else (remaining.eraseIdx i1).eraseIdx i2
          pairLoop totalPairs config snake availableDigits k board' remaining' rng'

/-- The simulated-play loop of `verifyBoardSolvable`, with the 100-move budget
as fuel. -/
def verifyLoop : Nat → Board → Bool
  | 0, _ => false
  | fuel + 1, board =>
    if isBoardCleared board then true
    else
      match findValidPair board with
      | none => false
      | some (p, q) => verifyLoop fuel (removeMatch board p q)

/-- `verifyBoardSolvable`: simulate play with `findValidPair` + `removeMatch`
for at most 100 moves. -/
def verifyBoardSolvable (board : Board) : Bool := verifyLoop 100 board

/-- `tryGenerateSolvableBoard`: snake-order constructive filling followed by a
simulated-play verification; `none` stands for an abandoned attempt. -/
def tryGenerateSolvableBoard (rows cols stage : Nat) (availableDigits : List Nat)
    (rng : Rng) : Except String (Option Board × Rng) :=
  match pairLoop (rows * cols / 2) (getDifficultyConfig stage) (snakePositions rows cols)
      availableDigits (rows * cols / 2) (createEmptyBoard rows cols)
      (List.range (snakePositions rows cols).length) rng with
  | .error e => .error e
  | .ok (none, rng') => .ok (none, rng')
  | .ok (some filled, rng') =>
    if verifyBoardSolvable filled then .ok (some filled, rng') else .ok (none, rng')

/-- The placement loop of `generateAdjacentPairsBoard`: place a random legal
value pair at linear indices `i` and `i + 1`, stepping by two. -/
def adjLoop (validPairs : List (Nat × Nat)) (cols : Nat) :
    Board → Nat → Nat → Rng → Board × Rng
  | board, _, 0, rng => (board, rng)
  | board, i, fuel + 1, rng =>
    match rng.below validPairs.length with
    | (r, rng') =>
      let p := validPairs.getD r (1, 1)
      let board' := setCellValue (setCellValue board (indexToPos i cols) (some p.1))
        (indexToPos (i + 1) cols) (some p.2)
      adjLoop validPairs cols board' (i + 2) fuel rng'

/-- `generateAdjacentPairsBoard`: pair linear-order neighbours `(2i, 2i+1)`
with random legal value pairs — the guaranteed-solvable fallback layout. -/
def generateAdjacentPairsBoard (rows cols : Nat) (availableDigits : List Nat)
    (rng : Rng) : Board × Rng :=
  adjLoop (getValidPairs availableDigits) cols (createEmptyBoard rows cols) 0
    (rows * cols / 2) rng

/-- The bounded retry loop of `generateBoard`. -/
def attemptLoop (rows cols stage : Nat) (availableDigits : List Nat) :
    Nat → Rng → Except String (Option Board × Rng)
  | 0, rng => .ok (none, rng)
  | n + 1, rng =>
    match tryGenerateSolvableBoard rows cols stage availableDigits rng with
    | .error e => .error e
    | .ok (some b, rng') => .ok (some b, rng')
    | .ok (none, rng') => attemptLoop rows cols stage availableDigits n rng'

/-- The cascading fallback over lower stages: ten attempts at each stage from
`fs` down to 1. -/
def stageFallbackLoop (rows cols : Nat) (availableDigits : List Nat) :
    Nat → Rng → Except String (Option Board × Rng)
  | 0, rng => .ok (none, rng)
  | fs + 1, rng =>
    match attemptLoop rows cols (fs + 1) availableDigits 10 rng with
    | .error e => .error e
    | .ok (some b, rng') => .ok (some b, rng')
    | .ok (none, rng') => stageFallbackLoop rows cols availableDigits fs rng'

/-- `generateBoard`: fail on an odd cell count or an empty legal-pair set,
then try 50 difficulty attempts, 10 per lower stage, and finally the
guaranteed adjacent-pairs fallback. -/
def generateBoard (rows cols stage : Nat) (availableDigits : List Nat)
    (rng : Rng) : Except String Board :=
  if rows * cols % 2 ≠ 0 then .error "Board must have even number of cells"
  else if (getValidPairs availableDigits).isEmpty then .error "No valid digit pairs available"
  else
    match attemptLoop rows cols stage availableDigits 50 rng with
    | .error e => .error e
    | .ok (some b, _) => .ok b
    | .ok (none, rng') =>
      match stageFallbackLoop rows cols availableDigits (stage - 1) rng' with
      | .error e => .error e
      | .ok (some b, _) => .ok b
      | .ok (none, rng'') => .ok (generateAdjacentPairsBoard rows cols availableDigits rng'').1

/-! ## `addRows` and its helpers -/

/-- Count of non-empty cells, the source's `board.flat().filter(...).length`. -/
def nonEmptyCount (board : Board) : Nat :=
  (board.flatten.filter fun cell => cell.value.isSome).length

/-- `board[0]?.length || cols` from `addRows`. -/
def boardColsOf (board : Board) (cols : Nat) : Nat :=
  if (board.headD []).length = 0 then cols else (board.headD []).length

/-- The generator's `hasValidMatch`: the cell holds a digit with some
value-compatible partner joined by a clear path, diagonals capped at 1. -/
def hasValidMatch (board : Board) (pos : Position) : Bool :=
  match ((board.getD pos.row []).getD pos.col ⟨none, ⟨0, 0⟩⟩).value with
  | none => false
  | some v =>
    (List.range board.length).any fun row =>
      (List.range (board.headD []).length).any fun col =>
        if row = pos.row ∧ col = pos.col then false
        else
          match ((board.getD row []).getD col ⟨none, ⟨0, 0⟩⟩).value with
          | none => false
          | some ov =>
            (v == ov || v + ov == 10) && hasValidPath board pos ⟨row, col⟩ (some 1)

/-- The stuck-cell scan of `addRows`: values of cells with no valid match,
in row-major order over the first `startRow` rows. -/
def stuckValues (board : Board) (startRow boardCols : Nat) : List Nat :=
  (List.range startRow).flatMap fun row =>
    (List.range boardCols).flatMap fun col =>
      match ((board.getD row []).getD col ⟨none, ⟨0, 0⟩⟩).value with
      | none => []
      | some v => if hasValidMatch board ⟨row, col⟩ then [] else [v]

/-- The compatible-digit choice of `addRows`, used both for the rescue value
of a stuck cell and for that value's own partner: same digit or complement,
whichever the available set allows, choosing randomly when both do. -/
def chooseRescueValue (availableDigits : List Nat) (value : Nat) (rng : Rng) :
    Option Nat × Rng :=
  let complement := 10 - value
  let canUseSame := availableDigits.contains value
  let canUseComplement :=
    decide (1 ≤ complement) && decide (complement ≤ 9) && availableDigits.contains complement
  if canUseSame && canUseComplement then
    match rng.chance 5 10 with
    | (b, rng') => (some (if b then value else complement), rng')
  else if canUseSame then (some value, rng)
  else if canUseComplement then (some complement, rng)
  else (none, rng)

/-- The rescue-pair loop of `addRows`: for each stuck value emit one
compatible digit (when the available set allows it) and then a partner for
that digit, stopping at the budget. -/
def rescueLoop (availableDigits : List Nat) (totalNewCells : Nat) :
    List Nat → List Nat → Rng → List Nat × Rng
  | [], acc, rng => (acc, rng)
  | value :: rest, acc, rng =>
    if totalNewCells ≤ acc.length then (acc, rng)
    else
      match chooseRescueValue availableDigits value rng with
      | (none, rng1) => rescueLoop availableDigits totalNewCells rest acc rng1
      | (some rv, rng1) =>
        if totalNewCells ≤ (acc ++ [rv]).length then (acc ++ [rv], rng1)
        else
          match chooseRescueValue availableDigits rv rng1 with
          | (none, rng2) => rescueLoop availableDigits totalNewCells rest (acc ++ [rv]) rng2
          | (some pv, rng2) =>
            rescueLoop availableDigits totalNewCells rest (acc ++ [rv] ++ [pv]) rng2

/-- The barrier-fill loop of `addRows`: push random legal value pairs while
more than one short of the budget.  The loop gains two values per step, so
the fuel `target - 1 - baseLen` passed at the call site always outlasts the
loop condition; the exit is always by the condition, never by the fuel. -/
def barrierLoop (validPairs : List (Nat × Nat)) (baseLen target : Nat) :
    Nat → List Nat → Rng → List Nat × Rng
  | 0, acc, rng => (acc, rng)
  | fuel + 1, acc, rng =>
    if baseLen + acc.length < target - 1 ∧ validPairs ≠ [] then
      match rng.below validPairs.length with
      | (r, rng') =>
        let p := validPairs.getD r (1, 1)
        barrierLoop validPairs baseLen target fuel (acc ++ [p.1, p.2]) rng'
    else (acc, rng)

/-- The ~30% random swap pass over the ordered values. -/
def swapLoop : List Nat → Nat → Nat → Rng → List Nat × Rng
  | l, _, 0, rng => (l, rng)
  | l, i, fuel + 1, rng =>
    match rng.chance 3 10 with
    | (doSwap, rng1) =>
      if doSwap then
        match rng1.below l.length with
        | (j, rng2) => swapLoop (swapIdx l i j) (i + 1) fuel rng2
      else swapLoop l (i + 1) fuel rng1

/-- The random-value phase of `addRows`: stuck-cell rescues, barrier pairs,
the odd-count single digit, both shuffles, the budget cut and the swap pass. -/
def addRowsValues (board : Board) (startRow boardCols totalNewCells : Nat)
    (availableDigits : List Nat) (rng : Rng) : List Nat × Rng :=
  match shuffle (stuckValues board startRow boardCols) rng with
  | (shuffledStuck, rng1) =>
    match rescueLoop availableDigits totalNewCells shuffledStuck [] rng1 with
    | (valuesToPlace, rng2) =>
      match barrierLoop (getValidPairs availableDigits) valuesToPlace.length totalNewCells
          (totalNewCells - 1 - valuesToPlace.length) [] rng2 with
      | (barrierValues, rng3) =>
        match
          (if valuesToPlace.length + barrierValues.length < totalNewCells ∧ availableDigits ≠ []
            then
              match rng3.below availableDigits.length with
              | (r, rng') => (barrierValues ++ [availableDigits.getD r 0], rng')
            else (barrierValues, rng3)) with
        | (barrierValues2, rng4) =>
          match shuffle barrierValues2 rng4 with
          | (shuffledBarriers, rng5) =>
            match shuffle valuesToPlace rng5 with
            | (shuffledRescue, rng6) =>
              let ordered0 := (shuffledBarriers ++ shuffledRescue).take totalNewCells
              swapLoop ordered0 0 ordered0.length rng6

/-- The backward scan for `lastNonNullCol`, from column `c - 1` down. -/
def lastNonNullColAux (row : List Cell) : Nat → Option Nat
  | 0 => none
  | c + 1 =>
    if ((row.getD c ⟨none, ⟨0, 0⟩⟩).value).isSome then some c
    else lastNonNullColAux row c

/-- Fill the trailing cells of the last row from `col` on, consuming values
while both columns and values remain. -/
def fillTrailing (rowIdx boardCols : Nat) : List Cell → List Nat → Nat → List Cell × List Nat
  | row, [], _ => (row, [])
  | row, v :: rest, col =>
    if col < boardCols then
      fillTrailing rowIdx boardCols (row.set col ⟨some v, ⟨rowIdx, col⟩⟩) rest (col + 1)
    else (row, v :: rest)

/-- Append full new rows of `boardCols` cells, consuming values. -/
def appendFullRows (boardCols : Nat) : Board → List Nat → Nat → Board × List Nat
  | b, vals, 0 => (b, vals)
  | b, vals, n + 1 =>
    let rowCells := (List.range boardCols).map fun col =>
      (⟨some (vals.getD col 0), ⟨b.length, col⟩⟩ : Cell)
    appendFullRows boardCols (b ++ [rowCells]) (vals.drop boardCols) n

/-- Append the final partial row: the first `k` cells hold values, the rest
are empty. -/
def appendPartialRow (boardCols k : Nat) (b : Board) (vals : List Nat) : Board :=
  b ++ [(List.range boardCols).map fun col =>
    if col < k then (⟨some (vals.getD col 0), ⟨b.length, col⟩⟩ : Cell)
    else (⟨none, ⟨b.length, col⟩⟩ : Cell)]

/-- The placement phase of `addRows`: fill the trailing empties of the last
existing row, then append full rows, then one partial row. -/
def placeNewValues (board : Board) (boardCols : Nat) (orderedValues : List Nat) : Board :=
  match
    (match lastNonNullColAux (board.getLastD []) boardCols with
      | some lnc =>
        if lnc < boardCols - 1 then
          fillTrailing (board.length - 1) boardCols (board.getLastD []) orderedValues (lnc + 1)
        else (board.getLastD [], orderedValues)
      | none => (board.getLastD [], orderedValues)) with
  | (filledLast, leftover) =>
    let withLast := board.dropLast ++ [filledLast]
    if leftover.length = 0 then withLast
    else
      match appendFullRows boardCols withLast leftover (leftover.length / boardCols) with
      | (b1, vals1) =>
        if leftover.length % boardCols = 0 then b1
        else appendPartialRow boardCols (leftover.length % boardCols) b1 vals1

/-- `addRows` from `boardGenerator.ts` (the `availableDigits`-aware version):
a no-op on a cleared board or an empty digit set; otherwise add
`min(remainingCells, count * boardCols)` new digits — rescues for stuck
cells plus barrier pairs — into the trailing empties of the last row, new
full rows, and one final partial row. -/
def addRows (board : Board) (count cols _stage : Nat) (availableDigits : List Nat)
    (rng : Rng) : Board × Rng :=
  if nonEmptyCount board = 0 then (board, rng)
  else if availableDigits.isEmpty then (board, rng)
  else
    match addRowsValues board board.length (boardColsOf board cols)
        (min (nonEmptyCount board) (count * boardColsOf board cols)) availableDigits rng with
    | (orderedValues, rng') =>
      (placeNewValues board (boardColsOf board cols) orderedValues, rng')

/-- A concrete random stream used by witnesses and counterexamples. -/
def rng0 : Rng := ⟨fun _ => 0, 0⟩

/-! ## C8: `addRows` is a no-op on a cleared board or an empty digit set -/

theorem isBoardCleared_iff_count (board : Board) :
    isBoardCleared board = true ↔ nonEmptyCount board = 0 := by
  unfold isBoardCleared nonEmptyCount
  rw [List.length_eq_zero, List.filter_eq_nil_iff]
  simp only [List.all_eq_true, List.mem_flatten]
  constructor
  · rintro h cell ⟨row, hrow, hcell⟩
    have h2 := h row hrow cell hcell
    simp only [Option.isNone_iff_eq_none] at h2
    simp [h2]
  · intro h row hrow cell hcell
    have h2 := h cell ⟨row, hrow, hcell⟩
    cases hv : cell.value with
    | none => simp
    | some v => exact absurd (by simp [hv]) h2

/-- C8: `addRows` returns the input board unchanged when the board is already
fully cleared or when no digits are available. -/
theorem addRows_noop (board : Board) (count cols stage : Nat) (digits : List Nat)
    (rng : Rng) (h : isBoardCleared board = true ∨ digits = []) :
    (addRows board count cols stage digits rng).1 = board := by
  unfold addRows
  rcases h with h | h
  · rw [if_pos ((isBoardCleared_iff_count board).mp h)]
  · by_cases h0 : nonEmptyCount board = 0
    · rw [if_pos h0]
    · rw [if_neg h0, if_pos (by simp [h])]

/-- C8 witness at a concrete cleared board. -/
theorem addRows_noop_check :
    (addRows (boardOf [[none, none]]) 4 9 1 ALL_DIGITS rng0).1 = boardOf [[none, none]] :=
  addRows_noop (boardOf [[none, none]]) 4 9 1 ALL_DIGITS rng0 (Or.inl (by decide))

/-! ## C7: the extension budget -/

theorem rescueLoop_length_le (digits : List Nat) (tN : Nat) (stuck : List Nat) :
    ∀ (acc : List Nat) (rng : Rng), acc.length ≤ tN →
      (rescueLoop digits tN stuck acc rng).1.length ≤ tN := by
  induction stuck with
  | nil => intro acc rng h; exact h
  | cons value rest ih =>
    intro acc rng h
    rw [rescueLoop]
    by_cases h0 : tN ≤ acc.length
    · rw [if_pos h0]; exact h
    · rw [if_neg h0]
      rcases hc : chooseRescueValue digits value rng with ⟨rescue, rng1⟩
      cases rescue with
      | none => exact ih acc rng1 h
      | some rv =>
        dsimp only
        by_cases h1 : tN ≤ (acc ++ [rv]).length
        · rw [if_pos h1]
          simp only [List.length_append, List.length_cons, List.length_nil]
          omega
        · rw [if_neg h1]
          rcases hc2 : chooseRescueValue digits rv rng1 with ⟨partner, rng2⟩
          simp only [List.length_append, List.length_cons, List.length_nil] at h1
          cases partner with
          | none => exact ih _ rng2 (by simp only [List.length_append,
              List.length_cons, List.length_nil]; omega)
          | some pv => exact ih _ rng2 (by simp only [List.length_append,
              List.length_cons, List.length_nil]; omega)

theorem barrierLoop_post (fuel : Nat) :
    ∀ (vp : List (Nat × Nat)) (base target : Nat) (acc : List Nat) (rng : Rng),
      target - 1 ≤ base + acc.length + fuel → vp ≠ [] →
      target - 1 ≤ base + (barrierLoop vp base target fuel acc rng).1.length := by
  induction fuel with
  | zero =>
    intro vp base target acc rng hm hvp
    rw [barrierLoop]
    dsimp only
    omega
  | succ n ih =>
    intro vp base target acc rng hm hvp
    rw [barrierLoop]
    split
    · next hcond =>
      rcases hb : rng.below vp.length with ⟨r, rng'⟩
      refine ih vp base target _ rng' ?_ hvp
      simp only [List.length_append, List.length_cons, List.length_nil]
      omega
    · next hcond =>
      have hno : ¬(base + acc.length < target - 1) := fun hA => hcond ⟨hA, hvp⟩
      dsimp only
      omega

theorem swapLoop_length (fuel : Nat) :
    ∀ (l : List Nat) (i : Nat) (rng : Rng), (swapLoop l i fuel rng).1.length = l.length := by
  induction fuel with
  | zero => intro l i rng; rfl
  | succ n ih =>
    intro l i rng
    rw [swapLoop]
    rcases hc : rng.chance 3 10 with ⟨doSwap, rng1⟩
    cases doSwap with
    | false => exact ih l (i + 1) rng1
    | true =>
      dsimp only
      rcases hb : rng1.below l.length with ⟨j, rng2⟩
      rw [if_pos rfl]
      rw [ih _ (i + 1) rng2, swapIdx_length]

theorem getValidPairs_ne_nil (digits : List Nat) (h : digits ≠ []) :
    getValidPairs digits ≠ [] := by
  match digits, h with
  | d :: rest, _ =>
    unfold getValidPairs
    simp [List.flatMap_cons]

/-- The ordered-value phase of `addRows` emits exactly the budgeted count. -/
theorem addRowsValues_length (board : Board) (startRow boardCols tN : Nat)
    (digits : List Nat) (rng : Rng) (hd : digits ≠ []) :
    (addRowsValues board startRow boardCols tN digits rng).1.length = tN := by
  unfold addRowsValues
  rcases h1 : shuffle (stuckValues board startRow boardCols) rng with ⟨shuffledStuck, rng1⟩
  dsimp only
  rcases h2 : rescueLoop digits tN shuffledStuck [] rng1 with ⟨valuesToPlace, rng2⟩
  dsimp only
  rcases h3 : barrierLoop (getValidPairs digits) valuesToPlace.length tN
      (tN - 1 - valuesToPlace.length) [] rng2 with ⟨barrierValues, rng3⟩
  dsimp only
  have hvle : valuesToPlace.length ≤ tN := by
    have := rescueLoop_length_le digits tN shuffledStuck [] rng1 (by simp)
    rw [h2] at this
    exact this
  have hbl : tN - 1 ≤ valuesToPlace.length + barrierValues.length := by
    have := barrierLoop_post (tN - 1 - valuesToPlace.length) (getValidPairs digits)
      valuesToPlace.length tN [] rng2 (by simp; omega) (getValidPairs_ne_nil digits hd)
    rw [h3] at this
    simpa using this
  split
  · next heq =>
    rcases hr : rng3.below digits.length with ⟨r, rng'⟩
    dsimp only
    rw [swapLoop_length]
    simp only [List.length_take, List.length_append, shuffle_length,
      List.length_cons, List.length_nil]
    omega
  · next hge =>
    rw [not_and_or] at hge
    have hsum : tN ≤ valuesToPlace.length + barrierValues.length := by
      rcases hge with hge | hge
      · omega
      · exact absurd hd (by simpa using hge)
    dsimp only
    rw [swapLoop_length]
    simp only [List.length_take, List.length_append, shuffle_length]
    omega

/-- Count of non-empty cells in one row. -/
def rowCount (row : List Cell) : Nat := (row.filter fun cell => cell.value.isSome).length

theorem nonEmptyCount_append (b1 b2 : Board) :
    nonEmptyCount (b1 ++ b2) = nonEmptyCount b1 + nonEmptyCount b2 := by
  simp [nonEmptyCount, List.flatten_append, List.filter_append]

theorem nonEmptyCount_singleton (row : List Cell) : nonEmptyCount [row] = rowCount row := by
  simp [nonEmptyCount, rowCount]

theorem lastNonNullColAux_spec (row : List Cell) (n : Nat) :
    (∀ lnc, lastNonNullColAux row n = some lnc →
      lnc < n ∧ ∀ c, lnc < c → c < n → (row.getD c ⟨none, ⟨0, 0⟩⟩).value = none) ∧
    (lastNonNullColAux row n = none →
      ∀ c, c < n → (row.getD c ⟨none, ⟨0, 0⟩⟩).value = none) := by
  induction n with
  | zero =>
    exact ⟨fun lnc h => (by cases h), fun _ c hc => absurd hc (Nat.not_lt_zero c)⟩
  | succ m ih =>
    constructor
    · intro lnc h
      rw [lastNonNullColAux] at h
      by_cases hs : ((row.getD m ⟨none, ⟨0, 0⟩⟩).value).isSome = true
      · rw [if_pos hs] at h
        cases h
        exact ⟨Nat.lt_succ_self m, fun c hc1 hc2 => by omega⟩
      · rw [if_neg hs] at h
        rcases ih.1 lnc h with ⟨hlt, hafter⟩
        refine ⟨by omega, fun c hc1 hc2 => ?_⟩
        by_cases hcm : c = m
        · subst hcm
          exact Option.not_isSome_iff_eq_none.mp hs
        · exact hafter c hc1 (by omega)
    · intro h c hc
      rw [lastNonNullColAux] at h
      by_cases hs : ((row.getD m ⟨none, ⟨0, 0⟩⟩).value).isSome = true
      · rw [if_pos hs] at h; cases h
      · rw [if_neg hs] at h
        by_cases hcm : c = m
        · subst hcm
          exact Option.not_isSome_iff_eq_none.mp hs
        · exact ih.2 h c (by omega)

theorem rowCount_set (row : List Cell) (i : Nat) (c : Cell) (hi : i < row.length)
    (hold : (row.getD i ⟨none, ⟨0, 0⟩⟩).value = none) (hnew : c.value.isSome = true) :
    rowCount (row.set i c) = rowCount row + 1 := by
  induction row generalizing i with
  | nil => cases hi
  | cons a as ih =>
    cases i with
    | zero =>
      rw [List.getD_cons_zero] at hold
      have ha : a.value.isSome = false := by rw [hold]; rfl
      simp [rowCount, List.filter_cons, hnew, ha]
    | succ i =>
      rw [List.getD_cons_succ] at hold
      have hrec := ih i (by simpa using hi) hold
      unfold rowCount at hrec
      simp only [List.set_cons_succ, rowCount, List.filter_cons]
      cases ha : a.value.isSome <;> simp [ha, hrec]

theorem getD_set_ne (l : List Cell) (i j : Nat) (a d : Cell) (h : i ≠ j) :
    (l.set i a).getD j d = l.getD j d := by
  rw [List.getD_eq_getD_get?, List.getD_eq_getD_get?, List.get?_set_ne _ _ h]

theorem fillTrailing_spec (rowIdx boardCols : Nat) (vals : List Nat) :
    ∀ (row : List Cell) (col : Nat),
      row.length = boardCols →
      (∀ c, col ≤ c → c < boardCols → (row.getD c ⟨none, ⟨0, 0⟩⟩).value = none) →
      rowCount (fillTrailing rowIdx boardCols row vals col).1 =
        rowCount row + min vals.length (boardCols - col) ∧
      (fillTrailing rowIdx boardCols row vals col).2.length =
        vals.length - (boardCols - col) := by
  induction vals with
  | nil =>
    intro row col hlen hnone
    rw [fillTrailing]
    exact ⟨by simp, by simp⟩
  | cons v rest ih =>
    intro row col hlen hnone
    rw [fillTrailing]
    by_cases hcol : col < boardCols
    · rw [if_pos hcol]
      have hset := rowCount_set row col ⟨some v, ⟨rowIdx, col⟩⟩ (by omega)
        (hnone col le_rfl hcol) rfl
      have hrec := ih (row.set col ⟨some v, ⟨rowIdx, col⟩⟩) (col + 1)
        (by rw [List.length_set, hlen])
        (fun c hc1 hc2 => by
          rw [getD_set_ne _ _ _ _ _ (by omega)]
          exact hnone c (by omega) hc2)
      rcases hrec with ⟨hcount, hleft⟩
      constructor
      · rw [hcount, hset]
        simp only [List.length_cons]
        omega
      · rw [hleft]
        simp only [List.length_cons]
        omega
    · rw [if_neg hcol]
      have h0 : boardCols - col = 0 := by omega
      rw [h0]
      exact ⟨by simp, by simp⟩

theorem rowCount_full (boardCols : Nat) (f : Nat → Nat) (g : Nat → Position) :
    rowCount ((List.range boardCols).map fun col => (⟨some (f col), g col⟩ : Cell)) =
      boardCols := by
  unfold rowCount
  rw [List.filter_eq_self.mpr, List.length_map, List.length_range]
  intro a ha
  rcases List.mem_map.mp ha with ⟨col, -, rfl⟩
  rfl

theorem appendFullRows_spec (boardCols : Nat) (n : Nat) :
    ∀ (b : Board) (vals : List Nat),
      nonEmptyCount (appendFullRows boardCols b vals n).1 =
        nonEmptyCount b + n * boardCols ∧
      (appendFullRows boardCols b vals n).2 = vals.drop (n * boardCols) := by
  induction n with
  | zero => intro b vals; exact ⟨by simp [appendFullRows], by simp [appendFullRows]⟩
  | succ n ih =>
    intro b vals
    rw [appendFullRows]
    rcases ih (b ++ [(List.range boardCols).map fun col =>
        (⟨some (vals.getD col 0), ⟨b.length, col⟩⟩ : Cell)]) (vals.drop boardCols) with ⟨hc, hd⟩
    constructor
    · rw [hc, nonEmptyCount_append, nonEmptyCount_singleton, rowCount_full]
      rw [Nat.succ_mul]
      omega
    · rw [hd, List.drop_drop]
      rw [Nat.succ_mul, Nat.add_comm (n * boardCols) boardCols]

theorem filter_range_lt_length (k n : Nat) :
    ((List.range n).filter fun c => decide (c < k)).length = min k n := by
  induction n with
  | zero => simp
  | succ n ih =>
    rw [List.range_succ, List.filter_append, List.length_append, ih]
    by_cases h : n < k <;> simp [h] <;> omega

theorem appendPartialRow_count (boardCols k : Nat) (b : Board) (vals : List Nat)
    (hk : k ≤ boardCols) :
    nonEmptyCount (appendPartialRow boardCols k b vals) = nonEmptyCount b + k := by
  unfold appendPartialRow
  rw [nonEmptyCount_append, nonEmptyCount_singleton]
  unfold rowCount
  rw [List.filter_map, List.length_map]
  have hcongr : List.filter ((fun cell : Cell => cell.value.isSome) ∘ fun col =>
      if col < k then (⟨some (vals.getD col 0), ⟨b.length, col⟩⟩ : Cell)
      else (⟨none, ⟨b.length, col⟩⟩ : Cell)) (List.range boardCols) =
      List.filter (fun c => decide (c < k)) (List.range boardCols) := by
    apply List.filter_congr
    intro c _
    by_cases hc : c < k <;> simp [hc, Function.comp]
  rw [hcongr, filter_range_lt_length]
  omega

theorem place_tail (L : Board) (filledLast : List Cell) (leftover : List Nat)
    (boardCols : Nat) (hcols : 0 < boardCols) :
    nonEmptyCount
      (if leftover.length = 0 then L ++ [filledLast]
       else
        match appendFullRows boardCols (L ++ [filledLast]) leftover
            (leftover.length / boardCols) with
        | (b1, vals1) =>
          if leftover.length % boardCols = 0 then b1
          else appendPartialRow boardCols (leftover.length % boardCols) b1 vals1) =
      nonEmptyCount (L ++ [filledLast]) + leftover.length := by
  by_cases h0 : leftover.length = 0
  · rw [if_pos h0, h0]
    omega
  · rw [if_neg h0]
    rcases hA : appendFullRows boardCols (L ++ [filledLast]) leftover
        (leftover.length / boardCols) with ⟨b1, vals1⟩
    have hspec := appendFullRows_spec boardCols (leftover.length / boardCols)
      (L ++ [filledLast]) leftover
    rw [hA] at hspec
    rcases hspec with ⟨hc, -⟩
    dsimp only
    by_cases hm : leftover.length % boardCols = 0
    · rw [if_pos hm, hc]
      have hdm := Nat.div_add_mod leftover.length boardCols
      rw [hm] at hdm
      have : boardCols * (leftover.length / boardCols) =
          leftover.length / boardCols * boardCols := Nat.mul_comm _ _
      omega
    · rw [if_neg hm]
      rw [appendPartialRow_count _ _ _ _ (le_of_lt (Nat.mod_lt _ hcols))]
      rw [hc]
      have hdm := Nat.div_add_mod leftover.length boardCols
      have : boardCols * (leftover.length / boardCols) =
          leftover.length / boardCols * boardCols := Nat.mul_comm _ _
      omega

/-- The placement phase of `addRows` adds exactly one non-empty cell per
supplied value. -/
theorem placeNewValues_count (board : Board) (boardCols : Nat) (vals : List Nat)
    (hne : board ≠ []) (hlen : ∀ row ∈ board, row.length = boardCols)
    (hcols : 0 < boardCols) :
    nonEmptyCount (placeNewValues board boardCols vals) =
      nonEmptyCount board + vals.length := by
  rcases List.eq_nil_or_concat board with h | ⟨L, last, hB⟩
  · exact absurd h hne
  rw [List.concat_eq_append] at hB
  subst hB
  have hlast : (L ++ [last]).getLastD [] = last := List.getLastD_concat _ _ _
  have hdrop : (L ++ [last]).dropLast = L := List.dropLast_concat
  have hlastlen : last.length = boardCols := hlen last (by simp)
  unfold placeNewValues
  rw [hlast, hdrop]
  rcases hl : lastNonNullColAux last boardCols with - | lnc
  · -- no non-empty cell found in the last row: no trailing fill
    dsimp only
    rw [place_tail L last vals boardCols hcols]
  · dsimp only
    by_cases hg : lnc < boardCols - 1
    · rw [if_pos hg]
      rcases hF : fillTrailing ((L ++ [last]).length - 1) boardCols last vals (lnc + 1) with
        ⟨filledLast, leftover⟩
      have hspec := fillTrailing_spec ((L ++ [last]).length - 1) boardCols vals last (lnc + 1)
        hlastlen
        (fun c hc1 hc2 => ((lastNonNullColAux_spec last boardCols).1 lnc hl).2 c (by omega) hc2)
      rw [hF] at hspec
      rcases hspec with ⟨hcount, hleft⟩
      dsimp only
      rw [place_tail L filledLast leftover boardCols hcols]
      rw [nonEmptyCount_append, nonEmptyCount_append, nonEmptyCount_singleton,
        nonEmptyCount_singleton, hcount, hleft]
      omega
    · rw [if_neg hg]
      dsimp only
      rw [place_tail L last vals boardCols hcols]

/-- C7 counterexample: on the 1×2 board `[[1,1]]` with `cols = 1`, the code
adds `min(2, 1 * boardCols) = 2` cells (it uses the board's own column count,
2), not the claimed `min(2, count * cols) = 1`. -/
theorem addRows_budget_counterexample :
    ¬ (nonEmptyCount (addRows (boardOf [[some 1, some 1]]) 1 1 1 [5] rng0).1 =
        nonEmptyCount (boardOf [[some 1, some 1]]) +
          min (nonEmptyCount (boardOf [[some 1, some 1]])) (1 * 1)) := by
  decide

/-- C7 (amended): for a rectangular board with at least one non-empty cell and
a non-empty digit set, `addRows` adds exactly
`min(remainingCells, count * boardCols)` non-empty cells, where `boardCols`
is the board's own column count (`board[0]?.length || cols`), not the `cols`
argument. -/
theorem addRows_budget (board : Board) (count cols stage : Nat) (digits : List Nat)
    (rng : Rng) (hrect : ∀ row ∈ board, row.length = (board.headD []).length)
    (hrem : 1 ≤ nonEmptyCount board) (hd : digits ≠ []) :
    nonEmptyCount (addRows board count cols stage digits rng).1 =
      nonEmptyCount board +
        min (nonEmptyCount board) (count * boardColsOf board cols) := by
  unfold addRows
  rw [if_neg (by omega), if_neg (by simp [hd])]
  rcases hv : addRowsValues board board.length (boardColsOf board cols)
      (min (nonEmptyCount board) (count * boardColsOf board cols)) digits rng with
    ⟨orderedValues, rng'⟩
  dsimp only
  have hlen := addRowsValues_length board board.length (boardColsOf board cols)
    (min (nonEmptyCount board) (count * boardColsOf board cols)) digits rng hd
  rw [hv] at hlen
  have hne : board ≠ [] := by
    intro h
    rw [h] at hrem
    simp [nonEmptyCount] at hrem
  have hhead : 0 < (board.headD []).length := by
    by_contra h0
    have hflat : board.flatten = [] := by
      apply List.eq_nil_iff_forall_not_mem.mpr
      intro cell hc
      rcases List.mem_flatten.mp hc with ⟨row, hrow, hcell⟩
      have hr := hrect row hrow
      have hr0 : row.length = 0 := by omega
      rw [List.length_eq_zero] at hr0
      subst hr0
      cases hcell
    unfold nonEmptyCount at hrem
    rw [hflat] at hrem
    simp at hrem
  have hbc : boardColsOf board cols = (board.headD []).length := by
    unfold boardColsOf
    rw [if_neg (by omega)]
  rw [placeNewValues_count board (boardColsOf board cols) orderedValues hne
    (by rw [hbc]; exact hrect) (by omega)]
  rw [hlen]

/-- C7 witness at a concrete board whose column count matches the argument. -/
theorem addRows_budget_check :
    nonEmptyCount (addRows (boardOf [[some 1, some 1]]) 1 2 1 [5] rng0).1 =
      nonEmptyCount (boardOf [[some 1, some 1]]) +
        min (nonEmptyCount (boardOf [[some 1, some 1]]))
          (1 * boardColsOf (boardOf [[some 1, some 1]]) 2) :=
  addRows_budget (boardOf [[some 1, some 1]]) 1 2 1 [5] rng0 (by decide) (by decide)
    (by decide)

/-! ## C4: `generateBoard` error behaviour -/

theorem generateBestPair_ok (board : Board) (pos1 pos2 : Position) (digits : List Nat)
    (rng : Rng) (hpairs : getValidPairs digits ≠ []) :
    ∃ res, generateBestPair board pos1 pos2 digits rng = .ok res := by
  unfold generateBestPair
  rcases hs : shuffle (getValidPairs digits) rng with ⟨allPairs, rng1⟩
  dsimp only
  have hlen : allPairs.length = (getValidPairs digits).length := by
    have := shuffle_length (getValidPairs digits) rng
    rw [hs] at this
    exact this
  have hne : allPairs ≠ [] := by
    intro h
    rw [h] at hlen
    exact hpairs (List.length_eq_zero.mp hlen.symm)
  rw [if_neg (by simpa [List.isEmpty_iff] using hne)]
  have hcne : (allPairs.flatMap fun p =>
      (⟨p, countAdjacentMatches board pos1 p.1 + countAdjacentMatches board pos2 p.2⟩ :
          PairCandidate) ::
        (if p.1 ≠ p.2 then
          [(⟨(p.2, p.1),
              countAdjacentMatches board pos1 p.2 + countAdjacentMatches board pos2 p.1⟩ :
            PairCandidate)]
        else [])) ≠ [] := by
    cases allPairs with
    | nil => exact absurd rfl hne
    | cons p rest => simp [List.flatMap_cons]
  rcases hc : rng1.chance 8 10 with ⟨pickBest, rng2⟩
  dsimp only
  split
  · split
    · next => exact ⟨_, rfl⟩
    · next hnil =>
      exfalso
      have h0 := congrArg List.length hnil
      rw [List.length_mergeSort] at h0
      exact hcne (List.length_eq_zero.mp (by simpa using h0))
  · next hcond =>
    rcases hbw : rng2.below 5 with ⟨i, rng3⟩
    dsimp only
    have hi : i < 5 := by
      have := Rng.below_lt rng2 5 (by omega)
      rw [hbw] at this
      exact this
    simp only [Bool.or_eq_true, decide_eq_true_eq, not_or, not_lt] at hcond
    split
    · next => exact ⟨_, rfl⟩
    · next hnone =>
      exfalso
      have := List.get?_eq_none.mp hnone
      omega

theorem pairLoop_ok (tp : Nat) (cfg : DifficultyConfig) (snake : List Position)
    (digits : List Nat) (hpairs : getValidPairs digits ≠ []) (k : Nat) :
    ∀ (board : Board) (remaining : List Nat) (rng : Rng),
      ∃ res, pairLoop tp cfg snake digits k board remaining rng = .ok res := by
  induction k with
  | zero => intro board remaining rng; exact ⟨_, rfl⟩
  | succ k ih =>
    intro board remaining rng
    rw [pairLoop]
    by_cases h2 : remaining.length < 2
    · rw [if_pos h2]; exact ⟨_, rfl⟩
    · rw [if_neg h2]
      dsimp only
      split
      · exact ⟨_, rfl⟩
      · next i1 i2 _ =>
        rcases generateBestPair_ok board (snake.getD (remaining.getD i1 0) ⟨0, 0⟩)
          (snake.getD (remaining.getD i2 0) ⟨0, 0⟩) digits rng hpairs with ⟨res, hgb⟩
        rcases res with ⟨vals, rng'⟩
        rw [hgb]
        exact ih _ _ rng'

theorem tryGenerateSolvableBoard_ok (rows cols stage : Nat) (digits : List Nat)
    (rng : Rng) (hpairs : getValidPairs digits ≠ []) :
    ∃ res, tryGenerateSolvableBoard rows cols stage digits rng = .ok res := by
  unfold tryGenerateSolvableBoard
  rcases pairLoop_ok (rows * cols / 2) (getDifficultyConfig stage) (snakePositions rows cols)
    digits hpairs (rows * cols / 2) (createEmptyBoard rows cols)
    (List.range (snakePositions rows cols).length) rng with ⟨res, hpl⟩
  rw [hpl]
  rcases res with ⟨ob, rng'⟩
  cases ob with
  | none => exact ⟨_, rfl⟩
  | some filled =>
    dsimp only
    split <;> exact ⟨_, rfl⟩

theorem tryGenerateSolvableBoard_some_verified (rows cols stage : Nat)
    (digits : List Nat) (rng : Rng) (b : Board) (rng2 : Rng)
    (h : tryGenerateSolvableBoard rows cols stage digits rng = .ok (some b, rng2)) :
    verifyBoardSolvable b = true := by
  unfold tryGenerateSolvableBoard at h
  cases hres : pairLoop (rows * cols / 2) (getDifficultyConfig stage)
      (snakePositions rows cols) digits (rows * cols / 2) (createEmptyBoard rows cols)
      (List.range (snakePositions rows cols).length) rng with
  | error e => rw [hres] at h; cases h
  | ok pr =>
    rw [hres] at h
    rcases pr with ⟨ob, rng'⟩
    cases ob with
    | none => simp at h
    | some filled =>
      dsimp only at h
      by_cases hv : verifyBoardSolvable filled = true
      · rw [if_pos hv] at h
        simp only [Except.ok.injEq, Prod.mk.injEq, Option.some.injEq] at h
        rw [← h.1]
        exact hv
      · rw [if_neg hv] at h
        simp at h

theorem attemptLoop_ok (rows cols stage : Nat) (digits : List Nat)
    (hpairs : getValidPairs digits ≠ []) (n : Nat) :
    ∀ rng, ∃ res, attemptLoop rows cols stage digits n rng = .ok res := by
  induction n with
  | zero => intro rng; exact ⟨_, rfl⟩
  | succ n ih =>
    intro rng
    rw [attemptLoop]
    rcases tryGenerateSolvableBoard_ok rows cols stage digits rng hpairs with ⟨res, ht⟩
    rw [ht]
    rcases res with ⟨ob, rng'⟩
    cases ob with
    | some b => exact ⟨_, rfl⟩
    | none => exact ih rng'

theorem attemptLoop_some_verified (rows cols stage : Nat) (digits : List Nat) (n : Nat) :
    ∀ (rng : Rng) (b : Board) (rng2 : Rng),
      attemptLoop rows cols stage digits n rng = .ok (some b, rng2) →
      verifyBoardSolvable b = true := by
  induction n with
  | zero => intro rng b rng2 h; simp [attemptLoop] at h
  | succ n ih =>
    intro rng b rng2 h
    rw [attemptLoop] at h
    cases hres : tryGenerateSolvableBoard rows cols stage digits rng with
    | error e => rw [hres] at h; cases h
    | ok pr =>
      rw [hres] at h
      rcases pr with ⟨ob, rng'⟩
      cases ob with
      | some b' =>
        dsimp only at h
        simp only [Except.ok.injEq, Prod.mk.injEq, Option.some.injEq] at h
        rw [← h.1]
        exact tryGenerateSolvableBoard_some_verified rows cols stage digits rng b' rng' hres
      | none => exact ih rng' b rng2 h

theorem stageFallbackLoop_ok (rows cols : Nat) (digits : List Nat)
    (hpairs : getValidPairs digits ≠ []) (fs : Nat) :
    ∀ rng, ∃ res, stageFallbackLoop rows cols digits fs rng = .ok res := by
  induction fs with
  | zero => intro rng; exact ⟨_, rfl⟩
  | succ fs ih =>
    intro rng
    rw [stageFallbackLoop]
    rcases attemptLoop_ok rows cols (fs + 1) digits hpairs 10 rng with ⟨res, ha⟩
    rw [ha]
    rcases res with ⟨ob, rng'⟩
    cases ob with
    | some b => exact ⟨_, rfl⟩
    | none => exact ih rng'

theorem stageFallbackLoop_some_verified (rows cols : Nat) (digits : List Nat) (fs : Nat) :
    ∀ (rng : Rng) (b : Board) (rng2 : Rng),
      stageFallbackLoop rows cols digits fs rng = .ok (some b, rng2) →
      verifyBoardSolvable b = true := by
  induction fs with
  | zero => intro rng b rng2 h; simp [stageFallbackLoop] at h
  | succ fs ih =>
    intro rng b rng2 h
    rw [stageFallbackLoop] at h
    cases hres : attemptLoop rows cols (fs + 1) digits 10 rng with
    | error e => rw [hres] at h; cases h
    | ok pr =>
      rw [hres] at h
      rcases pr with ⟨ob, rng'⟩
      cases ob with
      | some b' =>
        dsimp only at h
        simp only [Except.ok.injEq, Prod.mk.injEq, Option.some.injEq] at h
        rw [← h.1]
        exact attemptLoop_some_verified rows cols (fs + 1) digits 10 rng b' rng' hres
      | none => exact ih rng' b rng2 h

/-- C4: `generateBoard` raises an error exactly when `rows*cols` is odd or the
available digits admit no legal value pair; on every other input it returns a
board — generation exhaustion is absorbed by the fallbacks, never surfacing as
an error. -/
theorem generateBoard_error_iff (rows cols stage : Nat) (digits : List Nat) (rng : Rng) :
    ((∃ e, generateBoard rows cols stage digits rng = .error e) ↔
      rows * cols % 2 = 1 ∨ getValidPairs digits = []) ∧
    (rows * cols % 2 = 0 → getValidPairs digits ≠ [] →
      ∃ b, generateBoard rows cols stage digits rng = .ok b) := by
  have hok : rows * cols % 2 = 0 → getValidPairs digits ≠ [] →
      ∃ b, generateBoard rows cols stage digits rng = .ok b := by
    intro he hp
    unfold generateBoard
    rw [if_neg (by omega), if_neg (by simpa [List.isEmpty_iff] using hp)]
    rcases attemptLoop_ok rows cols stage digits hp 50 rng with ⟨res, hal⟩
    rw [hal]
    rcases res with ⟨ob, rng'⟩
    cases ob with
    | some b => exact ⟨b, rfl⟩
    | none =>
      dsimp only
      rcases stageFallbackLoop_ok rows cols digits hp (stage - 1) rng' with ⟨res2, hsf⟩
      rw [hsf]
      rcases res2 with ⟨ob2, rng''⟩
      cases ob2 with
      | some b => exact ⟨b, rfl⟩
      | none => exact ⟨_, rfl⟩
  refine ⟨⟨?_, ?_⟩, hok⟩
  · rintro ⟨e, he⟩
    by_contra hno
    rw [not_or] at hno
    obtain ⟨b, hb⟩ := hok (by omega) hno.2
    rw [hb] at he
    cases he
  · intro h
    by_cases hodd : rows * cols % 2 = 0
    · rcases h with h | h
      · omega
      · unfold generateBoard
        rw [if_neg (by omega), if_pos (by simp [h])]
        exact ⟨_, rfl⟩
    · unfold generateBoard
      rw [if_pos (by omega)]
      exact ⟨_, rfl⟩

/-! ## C1: every generated board is fully solvable -/

theorem findValidPair_canMatch (board : Board) (p q : Position)
    (h : findValidPair board = some (p, q)) : canMatch board p q = true := by
  unfold findValidPair at h
  simpa using List.find?_some h

theorem verifyLoop_sound (fuel : Nat) : ∀ b, verifyLoop fuel b = true → Solvable b := by
  induction fuel with
  | zero => intro b h; exact absurd h (by simp [verifyLoop])
  | succ fuel ih =>
    intro b h
    rw [verifyLoop] at h
    by_cases hc : isBoardCleared b = true
    · exact Solvable.cleared b hc
    · rw [if_neg hc] at h
      cases hf : findValidPair b with
      | none => rw [hf] at h; cases h
      | some pq =>
        rw [hf] at h
        rcases pq with ⟨p, q⟩
        exact Solvable.step b p q (findValidPair_canMatch b p q hf) (ih _ h)

theorem verify_sound (b : Board) (h : verifyBoardSolvable b = true) : Solvable b :=
  verifyLoop_sound 100 b h

/-- Two boards with equal length and pointwise equal cells are equal. -/
theorem board_ext (b1 b2 : Board) (hlen : b1.length = b2.length)
    (hcell : ∀ i j, cellAt? b1 i j = cellAt? b2 i j) : b1 = b2 := by
  apply List.ext_get?
  intro i
  cases h1 : b1.get? i with
  | none =>
    cases h2 : b2.get? i with
    | none => rfl
    | some r2 =>
      exfalso
      have hv1 := List.get?_eq_none.mp h1
      have hv2 : ¬ b2.get? i = none := by rw [h2]; simp
      rw [List.get?_eq_none] at hv2
      omega
  | some r1 =>
    cases h2 : b2.get? i with
    | none =>
      exfalso
      have hv2 := List.get?_eq_none.mp h2
      have hv1 : ¬ b1.get? i = none := by rw [h1]; simp
      rw [List.get?_eq_none] at hv1
      omega
    | some r2 =>
      have : r1 = r2 := by
        apply List.ext_get?
        intro j
        have hc := hcell i j
        unfold cellAt? at hc
        rw [h1, h2] at hc
        simpa using hc
      rw [this]

theorem setCellValue_length (board : Board) (pos : Position) (v : Option Nat) :
    (setCellValue board pos v).length = board.length :=
  listModify_length _ _ _

theorem setCellValue_rowlen (board : Board) (pos : Position) (v : Option Nat) (i : Nat) :
    ((setCellValue board pos v).getD i []).length = (board.getD i []).length := by
  unfold setCellValue
  rw [List.getD_eq_getD_get?, List.getD_eq_getD_get?, listModify_get?]
  by_cases hi : i = pos.row
  · rw [if_pos hi]
    cases h : board.get? i <;> simp [listModify_length]
  · rw [if_neg hi]

theorem setCellValue_cellAt (board : Board) (pos : Position) (v : Option Nat) (i j : Nat) :
    cellAt? (setCellValue board pos v) i j =
      if i = pos.row ∧ j = pos.col then
        (cellAt? board i j).map fun c => { c with value := v }
      else cellAt? board i j := by
  unfold setCellValue cellAt?
  rw [listModify_get?]
  by_cases hi : i = pos.row
  · rw [if_pos hi]
    cases hb : board.get? i with
    | none =>
      simp only [Option.map_none', Option.none_bind]
      split <;> simp
    | some row =>
      simp only [Option.map_some', Option.some_bind]
      rw [listModify_get?]
      by_cases hj : j = pos.col
      · rw [if_pos hj, if_pos ⟨hi, hj⟩]
      · rw [if_neg hj, if_neg (by tauto)]
  · rw [if_neg hi, if_neg (by tauto)]

theorem posToIndex_indexToPos (i cols : Nat) :
    posToIndex (indexToPos i cols) cols = i := by
  unfold posToIndex indexToPos
  dsimp only
  rw [Nat.mul_comm]
  exact Nat.div_add_mod i cols

theorem indexToPos_ne (i j cols : Nat) (h : i ≠ j) : indexToPos i cols ≠ indexToPos j cols := by
  intro he
  apply h
  rw [← posToIndex_indexToPos i cols, ← posToIndex_indexToPos j cols, he]

theorem createEmptyBoard_length (rows cols : Nat) :
    (createEmptyBoard rows cols).length = rows := by
  simp [createEmptyBoard]

theorem createEmptyBoard_rowlen (rows cols k : Nat) (hk : k < rows) :
    ((createEmptyBoard rows cols).getD k []).length = cols := by
  unfold createEmptyBoard
  rw [List.getD_eq_getD_get?, List.get?_map, List.get?_range hk]
  simp

theorem createEmptyBoard_cleared (rows cols : Nat) :
    isBoardCleared (createEmptyBoard rows cols) = true := by
  unfold isBoardCleared createEmptyBoard
  rw [List.all_eq_true]
  intro row hrow
  rcases List.mem_map.mp hrow with ⟨r, -, rfl⟩
  rw [List.all_eq_true]
  intro cell hcell
  rcases List.mem_map.mp hcell with ⟨c, -, rfl⟩
  rfl

theorem isBoardCleared_cellAt (b : Board) (h : isBoardCleared b = true) (r c : Nat)
    (cell : Cell) (hc : cellAt? b r c = some cell) : cell.value = none := by
  unfold cellAt? at hc
  cases hb : b.get? r with
  | none => rw [hb] at hc; cases hc
  | some row =>
    rw [hb] at hc
    simp only [Option.some_bind] at hc
    have hrow : row ∈ b := List.get?_mem hb
    have hcell : cell ∈ row := List.get?_mem hc
    unfold isBoardCleared at h
    have := (List.all_eq_true.mp ((List.all_eq_true.mp h) row hrow)) cell hcell
    simpa [Option.isNone_iff_eq_none] using this

theorem cellAt?_isSome (b : Board) (r c : Nat) (hr : r < b.length)
    (hc : c < (b.getD r []).length) : ∃ cell, cellAt? b r c = some cell := by
  unfold cellAt?
  cases hb : b.get? r with
  | none => exact absurd (List.get?_eq_none.mp hb) (by omega)
  | some row =>
    have hrow : b.getD r [] = row := by rw [List.getD_eq_getD_get?, hb]; rfl
    rw [hrow] at hc
    cases hcell : row.get? c with
    | none => exact absurd (List.get?_eq_none.mp hcell) (by omega)
    | some cell => exact ⟨cell, by simpa using hcell⟩

theorem getCell_eq_cellAt? (b : Board) (pos : Position) (hr : pos.row < b.length)
    (hc : pos.col < (b.headD []).length) :
    getCell b pos = cellAt? b pos.row pos.col := by
  unfold getCell cellAt?
  rw [if_neg (by omega), if_neg (by omega)]
  cases hb : b.get? pos.row with
  | none => exact absurd (List.get?_eq_none.mp hb) (by omega)
  | some row =>
    have hrow : b.getD pos.row [] = row := by rw [List.getD_eq_getD_get?, hb]; rfl
    rw [hrow]
    rfl

theorem hasValidPath_of_wrap (b : Board) (p q : Position)
    (hne : ¬(p.row = q.row ∧ p.col = q.col))
    (hw : isHorizontalWrapPathClear b p q = true) : hasValidPath b p q none = true := by
  unfold hasValidPath
  rw [if_neg (by simpa [Bool.and_eq_true] using hne)]
  simp [hw]

theorem wrap_clear_adjacent (b : Board) (p q : Position)
    (h : posToIndex q (b.headD []).length = posToIndex p (b.headD []).length + 1) :
    isHorizontalWrapPathClear b p q = true := by
  simp only [isHorizontalWrapPathClear]
  rw [h]
  have hmin : min (posToIndex p (b.headD []).length) (posToIndex p (b.headD []).length + 1) =
      posToIndex p (b.headD []).length := by omega
  have hmax : max (posToIndex p (b.headD []).length) (posToIndex p (b.headD []).length + 1) =
      posToIndex p (b.headD []).length + 1 := by omega
  rw [hmin, hmax]
  simp

theorem getValidPairs_compatible (digits : List Nat) (r : Nat) :
    canMatchValues ((getValidPairs digits).getD r (1, 1)).1
      ((getValidPairs digits).getD r (1, 1)).2 = true := by
  by_cases hr : r < (getValidPairs digits).length
  · have hmem : (getValidPairs digits).getD r (1, 1) ∈ getValidPairs digits := by
      rw [List.getD_eq_getD_get?]
      cases hg : (getValidPairs digits).get? r with
      | none => exact absurd (List.get?_eq_none.mp hg) (by omega)
      | some a => exact List.get?_mem (by rw [hg]; rfl)
    rcases List.mem_flatMap.mp hmem with ⟨d1, -, hin⟩
    rcases List.mem_cons.mp hin with heq | hin2
    · rw [heq]
      unfold canMatchValues
      simp
    · split at hin2
      · next hcond =>
        obtain ⟨h1, h2, h3, h4⟩ := hcond
        rw [List.mem_singleton.mp hin2]
        unfold canMatchValues
        dsimp only
        rw [Bool.or_eq_true]
        right
        simp only [beq_iff_eq]
        omega
      · cases hin2
  · rw [List.getD_eq_default _ _ (le_of_not_lt hr)]
    rfl

theorem headD_eq_getD (l : List α) (d : α) : l.headD d = l.getD 0 d := by
  cases l <;> rfl

/-- Distinct positions differ in at least one coordinate. -/
theorem position_parts_ne (p q : Position) (h : p ≠ q) :
    ¬(p.row = q.row ∧ p.col = q.col) := by
  rintro ⟨h1, h2⟩
  apply h
  cases p
  cases q
  simp_all

theorem indexToPos_ne_of_lt (p : Position) (i cols : Nat)
    (h : posToIndex p cols < i) : indexToPos i cols ≠ p := by
  intro he
  rw [← he, posToIndex_indexToPos] at h
  omega

theorem adjLoop_zero (vp : List (Nat × Nat)) (cols : Nat) (b : Board) (i : Nat)
    (rng : Rng) : adjLoop vp cols b i 0 rng = (b, rng) := rfl

theorem adjLoop_succ (vp : List (Nat × Nat)) (cols : Nat) (b : Board) (i fuel : Nat)
    (rng : Rng) :
    adjLoop vp cols b i (fuel + 1) rng =
      adjLoop vp cols
        (setCellValue
          (setCellValue b (indexToPos i cols)
            (some (vp.getD (rng.below vp.length).1 (1, 1)).1))
          (indexToPos (i + 1) cols)
          (some (vp.getD (rng.below vp.length).1 (1, 1)).2))
        (i + 2) fuel (rng.below vp.length).2 := rfl

theorem adjLoop_length (vp : List (Nat × Nat)) (cols : Nat) :
    ∀ fuel b i rng, (adjLoop vp cols b i fuel rng).1.length = b.length := by
  intro fuel
  induction fuel with
  | zero => intro b i rng; rw [adjLoop_zero]
  | succ fuel ih =>
    intro b i rng
    rw [adjLoop_succ, ih, setCellValue_length, setCellValue_length]

theorem adjLoop_rowlen (vp : List (Nat × Nat)) (cols : Nat) :
    ∀ fuel b i rng k,
      ((adjLoop vp cols b i fuel rng).1.getD k []).length = (b.getD k []).length := by
  intro fuel
  induction fuel with
  | zero => intro b i rng k; rw [adjLoop_zero]
  | succ fuel ih =>
    intro b i rng k
    rw [adjLoop_succ, ih, setCellValue_rowlen, setCellValue_rowlen]

/-- Cells at linear indices below the loop cursor are never touched. -/
theorem adjLoop_cellAt (vp : List (Nat × Nat)) (cols : Nat) :
    ∀ fuel b i rng m, m < i →
      cellAt? (adjLoop vp cols b i fuel rng).1
          (indexToPos m cols).row (indexToPos m cols).col =
        cellAt? b (indexToPos m cols).row (indexToPos m cols).col := by
  intro fuel
  induction fuel with
  | zero => intro b i rng m _; rw [adjLoop_zero]
  | succ fuel ih =>
    intro b i rng m hm
    rw [adjLoop_succ, ih _ _ _ m (by omega), setCellValue_cellAt, setCellValue_cellAt,
      if_neg (position_parts_ne _ _ (indexToPos_ne m (i + 1) cols (by omega))),
      if_neg (position_parts_ne _ _ (indexToPos_ne m i cols (by omega)))]

/-- Writing an untargeted cell commutes with removing a match. -/
theorem setCellValue_removeMatch_comm (b : Board) (pos p q : Position) (v : Option Nat)
    (hp : pos ≠ p) (hq : pos ≠ q) :
    setCellValue (removeMatch b p q) pos v = removeMatch (setCellValue b pos v) p q := by
  apply board_ext
  · rw [setCellValue_length, removeMatch_length, removeMatch_length, setCellValue_length]
  · intro i j
    simp only [setCellValue_cellAt, removeMatch_cellAt]
    by_cases hpos : i = pos.row ∧ j = pos.col
    · rw [if_pos hpos, if_pos hpos]
      have hP : ¬((i = p.row ∧ j = p.col) ∨ (i = q.row ∧ j = q.col)) := by
        rintro (⟨h1, h2⟩ | ⟨h1, h2⟩)
        · exact position_parts_ne pos p hp ⟨hpos.1 ▸ h1, hpos.2 ▸ h2⟩
        · exact position_parts_ne pos q hq ⟨hpos.1 ▸ h1, hpos.2 ▸ h2⟩
      cases hc : cellAt? b i j <;> simp [hP]
    · rw [if_neg hpos, if_neg hpos]

/-- Filling a pair of cleared cells and removing them again is the identity. -/
theorem removeMatch_set_pair (b : Board) (p q : Position) (v1 v2 : Nat)
    (hcl : isBoardCleared b = true) :
    removeMatch (setCellValue (setCellValue b p (some v1)) q (some v2)) p q = b := by
  apply board_ext
  · rw [removeMatch_length, setCellValue_length, setCellValue_length]
  · intro i j
    simp only [removeMatch_cellAt, setCellValue_cellAt]
    cases hc : cellAt? b i j with
    | none => by_cases hq' : i = q.row ∧ j = q.col <;> by_cases hp' : i = p.row ∧ j = p.col <;>
        simp [hq', hp']
    | some c =>
      have hv := isBoardCleared_cellAt b hcl i j c hc
      obtain ⟨cv, cpos⟩ := c
      dsimp only at hv
      subst hv
      by_cases hq' : i = q.row ∧ j = q.col <;> by_cases hp' : i = p.row ∧ j = p.col <;>
        simp [hq', hp'] <;> (try split <;> simp)

/-- Removing a match at indices below the cursor commutes with the whole loop. -/
theorem adjLoop_removeMatch_comm (vp : List (Nat × Nat)) (cols : Nat) :
    ∀ fuel b i rng p q, posToIndex p cols < i → posToIndex q cols < i →
      adjLoop vp cols (removeMatch b p q) i fuel rng =
        (removeMatch (adjLoop vp cols b i fuel rng).1 p q,
          (adjLoop vp cols b i fuel rng).2) := by
  intro fuel
  induction fuel with
  | zero => intro b i rng p q _ _; rw [adjLoop_zero, adjLoop_zero]
  | succ fuel ih =>
    intro b i rng p q hp hq
    rw [adjLoop_succ, adjLoop_succ,
      setCellValue_removeMatch_comm _ _ _ _ _ (indexToPos_ne_of_lt p i cols hp)
        (indexToPos_ne_of_lt q i cols hq),
      setCellValue_removeMatch_comm _ _ _ _ _ (indexToPos_ne_of_lt p (i + 1) cols (by omega))
        (indexToPos_ne_of_lt q (i + 1) cols (by omega)),
      ih _ _ _ p q (by omega) (by omega)]

theorem indexToPos_row (i cols : Nat) : (indexToPos i cols).row = i / cols := rfl

theorem indexToPos_col (i cols : Nat) : (indexToPos i cols).col = i % cols := rfl

/-- Two digit-bearing cells at consecutive linear indices always match: the
values are compatible and the linear-wrap path between them is empty. -/
theorem canMatch_wrap_pair (B : Board) (i cols : Nat) (hcols : 0 < cols)
    (hlen : (B.headD []).length = cols)
    (c1 c2 : Cell) (v1 v2 : Nat)
    (hr1 : i / cols < B.length) (hr2 : (i + 1) / cols < B.length)
    (h1 : cellAt? B (i / cols) (i % cols) = some c1)
    (h2 : cellAt? B ((i + 1) / cols) ((i + 1) % cols) = some c2)
    (hv1 : c1.value = some v1) (hv2 : c2.value = some v2)
    (hcm : canMatchValues v1 v2 = true) :
    canMatch B (indexToPos i cols) (indexToPos (i + 1) cols) = true := by
  have hg1 : getCell B (indexToPos i cols) = some c1 := by
    rw [getCell_eq_cellAt? B (indexToPos i cols) (by rw [indexToPos_row]; exact hr1)
      (by rw [indexToPos_col, hlen]; exact Nat.mod_lt _ hcols)]
    simpa [indexToPos_row, indexToPos_col] using h1
  have hg2 : getCell B (indexToPos (i + 1) cols) = some c2 := by
    rw [getCell_eq_cellAt? B (indexToPos (i + 1) cols) (by rw [indexToPos_row]; exact hr2)
      (by rw [indexToPos_col, hlen]; exact Nat.mod_lt _ hcols)]
    simpa [indexToPos_row, indexToPos_col] using h2
  unfold canMatch
  rw [hg1, hg2]
  dsimp only
  rw [hv1, hv2]
  dsimp only
  rw [hcm, Bool.true_and]
  apply hasValidPath_of_wrap
  · exact position_parts_ne _ _ (indexToPos_ne i (i + 1) cols (by omega))
  · apply wrap_clear_adjacent
    rw [hlen, posToIndex_indexToPos, posToIndex_indexToPos]

/-- Core of the fallback argument: running the pairing loop on a cleared
rectangular board yields a solvable board, because each placed pair can be
removed again in reverse order. -/
theorem adjLoop_solvable (vp : List (Nat × Nat)) (cols : Nat) (hcols : 0 < cols)
    (hvp : ∀ r, canMatchValues (vp.getD r (1, 1)).1 (vp.getD r (1, 1)).2 = true) :
    ∀ fuel b i rng, isBoardCleared b = true →
      (∀ k, k < b.length → (b.getD k []).length = cols) →
      i + 2 * fuel ≤ b.length * cols →
      Solvable (adjLoop vp cols b i fuel rng).1 := by
  intro fuel
  induction fuel with
  | zero =>
    intro b i rng hcl _ _
    rw [adjLoop_zero]
    exact Solvable.cleared b hcl
  | succ fuel ih =>
    intro b i rng hcl hrowlen hbound
    have hlen0 : 0 < b.length := by
      rcases Nat.eq_zero_or_pos b.length with h0 | h
      · rw [h0] at hbound
        simp at hbound
      · exact h
    have hi1 : i + 1 < b.length * cols := by omega
    have hrow_i : i / cols < b.length :=
      Nat.div_lt_of_lt_mul (by rw [Nat.mul_comm]; omega)
    have hrow_i1 : (i + 1) / cols < b.length :=
      Nat.div_lt_of_lt_mul (by rw [Nat.mul_comm]; omega)
    have hcol_i : i % cols < cols := Nat.mod_lt _ hcols
    have hcol_i1 : (i + 1) % cols < cols := Nat.mod_lt _ hcols
    have hP12 : indexToPos i cols ≠ indexToPos (i + 1) cols :=
      indexToPos_ne i (i + 1) cols (by omega)
    have hne_a : ¬(i / cols = (i + 1) / cols ∧ i % cols = (i + 1) % cols) := by
      simpa [indexToPos_row, indexToPos_col] using position_parts_ne _ _ hP12
    have hne_b : ¬((i + 1) / cols = i / cols ∧ (i + 1) % cols = i % cols) := by
      simpa [indexToPos_row, indexToPos_col] using position_parts_ne _ _ (Ne.symm hP12)
    obtain ⟨c1, hc1⟩ := cellAt?_isSome b (i / cols) (i % cols) hrow_i
      (by rw [hrowlen _ hrow_i]; exact hcol_i)
    obtain ⟨c2, hc2⟩ := cellAt?_isSome b ((i + 1) / cols) ((i + 1) % cols) hrow_i1
      (by rw [hrowlen _ hrow_i1]; exact hcol_i1)
    rw [adjLoop_succ]
    have hprc := hvp (rng.below vp.length).1
    generalize hpr : vp.getD (rng.below vp.length).1 (1, 1) = pr
    rw [hpr] at hprc
    generalize hrng : (rng.below vp.length).2 = rng2
    have hcell1 : cellAt? (adjLoop vp cols
        (setCellValue (setCellValue b (indexToPos i cols) (some pr.1))
          (indexToPos (i + 1) cols) (some pr.2)) (i + 2) fuel rng2).1
        (i / cols) (i % cols) = some { c1 with value := some pr.1 } := by
      have h := adjLoop_cellAt vp cols fuel
        (setCellValue (setCellValue b (indexToPos i cols) (some pr.1))
          (indexToPos (i + 1) cols) (some pr.2)) (i + 2) rng2 i (by omega)
      simp only [indexToPos_row, indexToPos_col] at h
      rw [h, setCellValue_cellAt, setCellValue_cellAt]
      simp [indexToPos_row, indexToPos_col, hne_a, hc1]
    have hcell2 : cellAt? (adjLoop vp cols
        (setCellValue (setCellValue b (indexToPos i cols) (some pr.1))
          (indexToPos (i + 1) cols) (some pr.2)) (i + 2) fuel rng2).1
        ((i + 1) / cols) ((i + 1) % cols) = some { c2 with value := some pr.2 } := by
      have h := adjLoop_cellAt vp cols fuel
        (setCellValue (setCellValue b (indexToPos i cols) (some pr.1))
          (indexToPos (i + 1) cols) (some pr.2)) (i + 2) rng2 (i + 1) (by omega)
      simp only [indexToPos_row, indexToPos_col] at h
      rw [h, setCellValue_cellAt, setCellValue_cellAt]
      simp [indexToPos_row, indexToPos_col, hne_b, hc2]
    have hcomm := adjLoop_removeMatch_comm vp cols fuel
      (setCellValue (setCellValue b (indexToPos i cols) (some pr.1))
        (indexToPos (i + 1) cols) (some pr.2)) (i + 2) rng2
      (indexToPos i cols) (indexToPos (i + 1) cols)
      (by rw [posToIndex_indexToPos]; omega) (by rw [posToIndex_indexToPos]; omega)
    rw [removeMatch_set_pair b (indexToPos i cols) (indexToPos (i + 1) cols) pr.1 pr.2 hcl]
      at hcomm
    have hIH := ih b (i + 2) rng2 hcl hrowlen (by omega)
    rw [hcomm] at hIH
    refine Solvable.step _ (indexToPos i cols) (indexToPos (i + 1) cols) ?_ hIH
    refine canMatch_wrap_pair _ i cols hcols ?_ _ _ pr.1 pr.2 ?_ ?_ hcell1 hcell2 rfl rfl hprc
    · rw [headD_eq_getD, adjLoop_rowlen, setCellValue_rowlen, setCellValue_rowlen]
      exact hrowlen 0 hlen0
    · rw [adjLoop_length, setCellValue_length, setCellValue_length]
      exact hrow_i
    · rw [adjLoop_length, setCellValue_length, setCellValue_length]
      exact hrow_i1

/-- The adjacent-pairs fallback board is always solvable, even though the
source never runs `verifyBoardSolvable` on it. -/
theorem generateAdjacentPairsBoard_solvable (rows cols : Nat) (digits : List Nat)
    (rng : Rng) : Solvable (generateAdjacentPairsBoard rows cols digits rng).1 := by
  unfold generateAdjacentPairsBoard
  rcases Nat.eq_zero_or_pos cols with hc | hc
  · subst hc
    rw [Nat.mul_zero, Nat.zero_div, adjLoop_zero]
    exact Solvable.cleared _ (createEmptyBoard_cleared rows 0)
  · apply adjLoop_solvable (getValidPairs digits) cols hc
      (fun r => getValidPairs_compatible digits r)
    · exact createEmptyBoard_cleared rows cols
    · intro k hk
      rw [createEmptyBoard_length] at hk
      exact createEmptyBoard_rowlen rows cols k hk
    · rw [createEmptyBoard_length]
      omega

/-- C1: for every rows, cols, stage and availableDigits with rows*cols even and
at least one legal value pair available, `generateBoard` returns a grid, and on
every return path — a `verifyBoardSolvable`-checked attempt, a lower-stage
retry, or the unverified adjacent-pairs fallback — that grid is fully solvable:
a finite sequence of moves, each removing via `removeMatch` a pair of positions
satisfying `canMatch` on the current grid, ends in a grid satisfying
`isBoardCleared`. -/
theorem generateBoard_solvable (rows cols stage : Nat) (digits : List Nat) (rng : Rng)
    (heven : rows * cols % 2 = 0) (hpairs : getValidPairs digits ≠ []) :
    ∃ b, generateBoard rows cols stage digits rng = Except.ok b ∧ Solvable b := by
  unfold generateBoard
  rw [if_neg (by omega), if_neg (by simpa [List.isEmpty_iff] using hpairs)]
  rcases attemptLoop_ok rows cols stage digits hpairs 50 rng with ⟨res, ha⟩
  rcases res with ⟨ob, rng1⟩
  rw [ha]
  cases ob with
  | some b =>
    exact ⟨b, rfl,
      verify_sound b (attemptLoop_some_verified rows cols stage digits 50 rng b rng1 ha)⟩
  | none =>
    dsimp only
    rcases stageFallbackLoop_ok rows cols digits hpairs (stage - 1) rng1 with ⟨res2, hs⟩
    rcases res2 with ⟨ob2, rng2⟩
    rw [hs]
    cases ob2 with
    | some b =>
      exact ⟨b, rfl,
        verify_sound b (stageFallbackLoop_some_verified rows cols digits (stage - 1) rng1 b rng2 hs)⟩
    | none =>
      exact ⟨(generateAdjacentPairsBoard rows cols digits rng2).1, rfl,
        generateAdjacentPairsBoard_solvable rows cols digits rng2⟩

theorem generateBoard_solvable_check :
    2 * 2 % 2 = 0 ∧ getValidPairs [5] ≠ [] ∧
      ∃ b, generateBoard 2 2 1 [5] rng0 = Except.ok b ∧ Solvable b :=
  ⟨by decide, by decide, generateBoard_solvable 2 2 1 [5] rng0 (by decide) (by decide)⟩

end Digits
